import Mathlib

/-!
# Verification of the `ende` binary codec kernel

A shallow embedding of the primitive codec of the `ende` crate
(`src/ende/src/lib.rs` and `src/ende/src/compression/mod.rs`), together with
proofs and refutations of the specification claims about it.

Conventions of the embedding:

* Byte streams are `List Nat` (each element is one byte, `< 256` whenever it
  was produced by a writer).
* Machine integers of width `B` are modelled as `Nat` (unsigned values,
  `< 2 ^ B`) or `Int` (signed values, in `[-2 ^ (B-1), 2 ^ (B-1))`), with
  wrap-around made explicit through `% 2 ^ B`.  An arithmetic right shift by 7
  of a signed value is `v / 128` (Lean division on `Int` rounds towards
  negative infinity for a positive divisor), and `v as u8 & 0x7F` is
  `(v % 128).toNat`.
* Readers return the value (or an error) together with the not-yet-consumed
  remainder of the stream, mirroring the fact that a Rust reader keeps its
  position when a read fails.
-/

namespace Ende

/-- Byte order of a numerical value (`Endianness`, src/ende/src/lib.rs:541). -/
inductive Endianness where
  | littleEndian
  | bigEndian
deriving DecidableEq, Repr

/-- Numerical encoding (`NumEncoding`, src/ende/src/lib.rs:568). -/
inductive NumEncoding where
  | fixed
  | leb128
  | protobufWasteful
  | protobufZigzag
deriving DecidableEq, Repr

/-- Bit width of a size or enum variant (`BitWidth`, src/ende/src/lib.rs:611). -/
inductive BitWidth where
  | bit8
  | bit16
  | bit32
  | bit64
  | bit128
deriving DecidableEq, Repr

/-- `BitWidth::bits` (src/ende/src/lib.rs:669). -/
def BitWidth.bits : BitWidth → Nat
  | .bit8 => 8
  | .bit16 => 16
  | .bit32 => 32
  | .bit64 => 64
  | .bit128 => 128

/-- String encoding (`StrEncoding`, src/ende/src/lib.rs:707). -/
inductive StrEncoding where
  | utf8
  | utf16
  | utf32
deriving DecidableEq, Repr

/-- Models the source's maximum-width integer carrier (the `Opaque` type of
`mod opaque`).  Modelled from the spec: the `opaque` module is not under
`src/`; spec §4.C describes a value tagged by sign holding any integer in
`[-2^127, 2^128-1]`, convertible out with a range check. -/
inductive MaxWidthInt where
  | unsigned (v : Nat)
  | signed (v : Int)
deriving DecidableEq, Repr

/-- String sub-errors (`StringError`, src/ende/src/error.rs:156). -/
inductive StrErr where
  | invalidUtf8
  | invalidUtf16
  | invalidUtf32
deriving DecidableEq, Repr

/-- Flatten sub-errors (`FlattenError`, src/ende/src/error.rs:181). -/
inductive FlattenErr where
  | boolMismatch (expected got : Bool)
  | variantMismatch (expected got : MaxWidthInt)
  | lenMismatch (expected got : Nat)
deriving DecidableEq, Repr

/-- Errors of the codec (`EncodingError`, src/ende/src/error.rs:18), restricted
to the variants reachable by the embedded operations.  `rangeError` stands for
the conversion error raised by a failed narrowing of the maximum-width integer
carrier (spec §4.C). -/
inductive EErr where
  | unexpectedEnd
  | varIntError
  | invalidBool
  | maxSizeExceeded (max requested : Nat)
  | flattenError (e : FlattenErr)
  | stringError (e : StrErr)
  | rangeError
deriving DecidableEq, Repr

/-- Result of a read from a byte-list stream: the remaining stream is reported
both on success and on failure. -/
inductive DRes (α : Type) where
  | ok (val : α) (rest : List Nat)
  | err (e : EErr) (rest : List Nat)
deriving DecidableEq, Repr

/-- Little-endian byte decomposition: `value.to_le_bytes()` for an `n`-byte
integer whose bit pattern is `v` (as a `Nat`). -/
def toLeBytes : Nat → Nat → List Nat
  | 0, _ => []
  | n + 1, v => v % 256 :: toLeBytes n (v / 256)

/-- Little-endian byte recomposition: `T::from_le_bytes(bytes)`. -/
def fromLeBytes : List Nat → Nat
  | [] => 0
  | b :: rest => b + 256 * fromLeBytes rest

/-- Exact-length read of `n` bytes: a stream must either fill the buffer or
fail with `UnexpectedEnd` (spec §4.A). -/
def readExact (n : Nat) (input : List Nat) : DRes (List Nat) :=
  if n ≤ input.length then .ok (input.take n) (input.drop n)
  else .err .unexpectedEnd (input.drop n)

/-- Unsigned LEB128 encoder: the private `uleb128_encode` of `make_write_fns`
(src/ende/src/lib.rs:1067).  One 7-bit group is emitted per iteration; the
continuation bit is set while the shifted-down value is nonzero. -/
def uleb128_encode (value : Nat) : List Nat :=
  if value / 128 ≠ 0 then (value % 128 ||| 128) :: uleb128_encode (value / 128)
  else [value % 128]
termination_by value
decreasing_by
  exact Nat.div_lt_self (by omega) (by omega)

/-- Unsigned LEB128 decoder: the private `uleb128_decode` of `make_read_fns`
(src/ende/src/lib.rs:1495).  `B` is `bits(T)`; `result` and `shift` are the
loop accumulators (both start at 0).  The shift guard is checked at the start
of each iteration; the OR into `result` wraps at width `B` exactly as the
fixed-width `<<` of the source does. -/
def uleb128_decode (B : Nat) : List Nat → Nat → Nat → DRes Nat
  | input, result, shift =>
    if B ≤ shift then .err .varIntError input
    else
      match input with
      | [] => .err .unexpectedEnd []
      | b :: rest =>
        if b &&& 128 == 0 then .ok (result ||| ((b &&& 127) <<< shift) % 2 ^ B) rest
        else uleb128_decode B rest (result ||| ((b &&& 127) <<< shift) % 2 ^ B) (shift + 7)

/-- Signed LEB128 encoder: the private `leb128_encode` of `make_write_fns`
(src/ende/src/lib.rs:1110).  The signed value is modelled as a mathematical
integer; `value / 128` is the arithmetic right shift by 7 and
`(value % 128).toNat` the low 7 bits of the two's complement pattern. -/
def leb128_encode (value : Int) : List Nat :=
  if ((value % 128).toNat &&& 64 ≠ 0 ∧ value / 128 ≠ -1) ∨
      (¬((value % 128).toNat &&& 64 ≠ 0) ∧ value / 128 ≠ 0) then
    ((value % 128).toNat ||| 128) :: leb128_encode (value / 128)
  else [(value % 128).toNat]
termination_by value.natAbs
decreasing_by
  rename_i hbr
  have h64 : ∀ bb : Nat, bb < 128 → (bb &&& 64 ≠ 0 ↔ 64 ≤ bb) := by decide
  have hb : (value % 128).toNat < 128 := by omega
  rcases hbr with ⟨hneg, hsh⟩ | ⟨hneg, hsh⟩
  · have : 64 ≤ (value % 128).toNat := (h64 _ hb).mp hneg
    omega
  · have : ¬ 64 ≤ (value % 128).toNat := fun h => hneg ((h64 _ hb).mpr h)
    omega

/-- Interpret a `B`-bit pattern (given as a `Nat`) as a two's complement
signed integer. -/
def toSigned (B : Nat) (r : Nat) : Int :=
  if r < 2 ^ (B - 1) then (r : Int) else (r : Int) - 2 ^ B

/-- Signed LEB128 decoder: the private `leb128_decode` of `make_read_fns`
(src/ende/src/lib.rs:1540).  The accumulator `result` is the unsigned bit
pattern of the signed `ity` accumulator; after the loop the source
sign-extends with `result |= !0 << shift` (at the post-increment shift) when
the final byte carries the sign bit, and the final pattern is reinterpreted
as a signed value. -/
def leb128_decode (B : Nat) : List Nat → Nat → Nat → DRes Int
  | input, result, shift =>
    if B ≤ shift then .err .varIntError input
    else
      match input with
      | [] => .err .unexpectedEnd []
      | b :: rest =>
        if b &&& 128 == 0 then
          .ok (toSigned B
            (if shift + 7 < B ∧ b &&& 64 ≠ 0 then
              (result ||| ((b &&& 127) <<< shift) % 2 ^ B) |||
                ((2 ^ B - 1) <<< (shift + 7)) % 2 ^ B
            else result ||| ((b &&& 127) <<< shift) % 2 ^ B)) rest
        else leb128_decode B rest (result ||| ((b &&& 127) <<< shift) % 2 ^ B) (shift + 7)

/-- Protobuf zigzag transform `(value << 1) ^ (value >> (BITS - 1))` of the
signed write path (src/ende/src/lib.rs:1156), as the unsigned `B`-bit pattern:
the left shift wraps at width `B`, and the arithmetic right shift by `B - 1`
is all-ones for a negative value and zero otherwise. -/
def zigzagEncode (B : Nat) (value : Int) : Nat :=
  ((2 * value) % (2 ^ B : Int)).toNat ^^^ (if value < 0 then 2 ^ B - 1 else 0)

/-- The unsigned write dispatch `write_uN_with` generated by `make_write_fns`
(src/ende/src/lib.rs:1093): fixed encoding writes the `B/8` bytes of the value
in the requested byte order, all var-int encodings use unsigned LEB128. -/
def write_unsigned_with (B : Nat) (enc : NumEncoding) (e : Endianness) (value : Nat) :
    List Nat :=
  match enc with
  | .fixed =>
    match e with
    | .bigEndian => (toLeBytes (B / 8) value).reverse
    | .littleEndian => toLeBytes (B / 8) value
  | .leb128 | .protobufWasteful | .protobufZigzag => uleb128_encode value

/-- The unsigned read dispatch `read_uN_with` generated by `make_read_fns`
(src/ende/src/lib.rs:1523). -/
def read_unsigned_with (B : Nat) (enc : NumEncoding) (e : Endianness) (input : List Nat) :
    DRes Nat :=
  match enc with
  | .fixed =>
    match readExact (B / 8) input with
    | .err er rest => .err er rest
    | .ok bytes rest =>
      match e with
      | .bigEndian => .ok (fromLeBytes bytes.reverse) rest
      | .littleEndian => .ok (fromLeBytes bytes) rest
  | .leb128 | .protobufWasteful | .protobufZigzag => uleb128_decode B input 0 0

/-- The signed write dispatch `write_iN_with` generated by `make_write_fns`
(src/ende/src/lib.rs:1138): fixed encoding writes the two's complement bytes,
`Leb128` uses the signed LEB128 encoder, `ProtobufWasteful` reinterprets the
bits as unsigned, `ProtobufZigzag` applies the zigzag transform; the last
three all emit unsigned LEB128 groups. -/
def write_signed_with (B : Nat) (enc : NumEncoding) (e : Endianness) (value : Int) :
    List Nat :=
  match enc with
  | .fixed =>
    let r := ((value % (2 ^ B : Int))).toNat
    match e with
    | .bigEndian => (toLeBytes (B / 8) r).reverse
    | .littleEndian => toLeBytes (B / 8) r
  | .leb128 => leb128_encode value
  | .protobufWasteful => uleb128_encode ((value % (2 ^ B : Int))).toNat
  | .protobufZigzag => uleb128_encode (zigzagEncode B value)

/-- The signed read dispatch `read_iN_with` generated by `make_read_fns`
(src/ende/src/lib.rs:1572).  The zigzag inverse reads an unsigned var-int `u`
and computes `!(u >> 1)` (bitwise NOT at width `B`) when `u` is odd and
`u >> 1` otherwise, then reinterprets the pattern as signed. -/
def read_signed_with (B : Nat) (enc : NumEncoding) (e : Endianness) (input : List Nat) :
    DRes Int :=
  match enc with
  | .fixed =>
    match readExact (B / 8) input with
    | .err er rest => .err er rest
    | .ok bytes rest =>
      match e with
      | .bigEndian => .ok (toSigned B (fromLeBytes bytes.reverse)) rest
      | .littleEndian => .ok (toSigned B (fromLeBytes bytes)) rest
  | .leb128 => leb128_decode B input 0 0
  | .protobufWasteful =>
    match uleb128_decode B input 0 0 with
    | .err er rest => .err er rest
    | .ok u rest => .ok (toSigned B u) rest
  | .protobufZigzag =>
    match uleb128_decode B input 0 0 with
    | .err er rest => .err er rest
    | .ok u rest =>
      let t := if u &&& 1 ≠ 0 then (2 ^ B - 1) ^^^ (u >>> 1) else u >>> 1
      .ok (toSigned B t) rest

/-! ## Settings, context, and flatten channels -/

/-- `NumRepr` (src/ende/src/lib.rs:734). -/
structure NumRepr where
  endianness : Endianness
  num_encoding : NumEncoding
deriving DecidableEq, Repr

/-- `SizeRepr` (src/ende/src/lib.rs:763).  `max_size` is a `usize`; the host
platform is taken to be 64-bit, so `usize::MAX = 2 ^ 64 - 1`. -/
structure SizeRepr where
  endianness : Endianness
  num_encoding : NumEncoding
  width : BitWidth
  max_size : Nat
deriving DecidableEq, Repr

/-- `VariantRepr` (src/ende/src/lib.rs:796). -/
structure VariantRepr where
  endianness : Endianness
  num_encoding : NumEncoding
  width : BitWidth
deriving DecidableEq, Repr

/-- `StringRepr` (src/ende/src/lib.rs:833). -/
structure StringRepr where
  str_encoding : StrEncoding
  endianness : Endianness
deriving DecidableEq, Repr

/-- `BinSettings` (src/ende/src/lib.rs:860). -/
structure BinSettings where
  num_repr : NumRepr
  size_repr : SizeRepr
  variant_repr : VariantRepr
  string_repr : StringRepr
deriving DecidableEq, Repr

/-- `BinSettings::new()` defaults (src/ende/src/lib.rs:875): everything little
endian and fixed; sizes 64-bit with `max_size = usize::MAX`; variants 32-bit;
strings UTF-8. -/
def BinSettings.new : BinSettings where
  num_repr := ⟨.littleEndian, .fixed⟩
  size_repr := ⟨.littleEndian, .fixed, .bit64, 2 ^ 64 - 1⟩
  variant_repr := ⟨.littleEndian, .fixed, .bit32⟩
  string_repr := ⟨.utf8, .littleEndian⟩

/-- `Context` (src/ende/src/lib.rs:885): the settings plus the three flatten
side-channels.  The `user` field (a borrowed `dyn Any`) plays no role in any
codec operation and is omitted. -/
structure Context where
  settings : BinSettings
  bool_flatten : Option Bool
  variant_flatten : Option MaxWidthInt
  size_flatten : Option Nat
deriving DecidableEq, Repr

/-- `Context::new()` (src/ende/src/lib.rs:931). -/
def Context.new : Context where
  settings := BinSettings.new
  bool_flatten := none
  variant_flatten := none
  size_flatten := none

/-- Narrowing conversion of the maximum-width carrier to an unsigned type of
`w` bits.  Modelled from the spec: §4.C — every narrowing checks range and
returns a conversion error on overflow. -/
def MaxWidthInt.toUnsignedWidth (w : Nat) : MaxWidthInt → Except EErr Nat
  | .unsigned v => if v < 2 ^ w then .ok v else .error .rangeError
  | .signed v => if 0 ≤ v ∧ v < 2 ^ w then .ok v.toNat else .error .rangeError

/-- Narrowing conversion of the maximum-width carrier to a signed type of
`w` bits.  Modelled from the spec: §4.C. -/
def MaxWidthInt.toSignedWidth (w : Nat) : MaxWidthInt → Except EErr Int
  | .unsigned v => if (v : Int) < 2 ^ (w - 1) then .ok v else .error .rangeError
  | .signed v =>
    if -(2 ^ (w - 1) : Int) ≤ v ∧ v < 2 ^ (w - 1) then .ok v else .error .rangeError

/-- Success or error of a write operation. -/
inductive WRes where
  | ok
  | err (e : EErr)
deriving DecidableEq, Repr

/-- Outcome of a write operation: success flag or error, the bytes appended to
the stream by the call, and the context after the call (also after a failed
call). -/
structure WriteResult where
  res : WRes
  bytes : List Nat
  ctxt : Context
deriving DecidableEq, Repr

/-- Result of a context-carrying read: value or error, remaining stream, and
the context after the call. -/
inductive RRes (α : Type) where
  | ok (val : α) (rest : List Nat) (ctxt : Context)
  | err (e : EErr) (rest : List Nat) (ctxt : Context)
deriving DecidableEq, Repr

/-- `Encoder::write_usize` (src/ende/src/lib.rs:1234).  The flatten channel is
consumed by `Context::size_flatten()` before the comparison; on the
non-flatten path the value is bound-checked against `max_size`, narrowed to
the configured width through the maximum-width carrier, and written with the
size settings. -/
def write_usize (c : Context) (value : Nat) : WriteResult :=
  match c.size_flatten with
  | some size =>
    if size ≠ value then
      ⟨.err (.flattenError (.lenMismatch size value)), [],
        { c with size_flatten := none }⟩
    else ⟨.ok, [], { c with size_flatten := none }⟩
  | none =>
    if value > c.settings.size_repr.max_size then
      ⟨.err (.maxSizeExceeded c.settings.size_repr.max_size value), [], c⟩
    else
      match (MaxWidthInt.unsigned value).toUnsignedWidth
          c.settings.size_repr.width.bits with
      | .error er => ⟨.err er, [], c⟩
      | .ok v =>
        ⟨.ok, write_unsigned_with c.settings.size_repr.width.bits
          c.settings.size_repr.num_encoding c.settings.size_repr.endianness v, c⟩

/-- `Encoder::read_usize` (src/ende/src/lib.rs:1676).  With the flatten
channel armed the stored size is returned, consuming the channel and reading
nothing; otherwise a value is read at the configured width, converted to
`usize` (64-bit host) and only then checked against `max_size`. -/
def read_usize (c : Context) (input : List Nat) : RRes Nat :=
  match c.size_flatten with
  | some size => .ok size input { c with size_flatten := none }
  | none =>
    match read_unsigned_with c.settings.size_repr.width.bits
        c.settings.size_repr.num_encoding c.settings.size_repr.endianness input with
    | .err er rest => .err er rest c
    | .ok v rest =>
      match (MaxWidthInt.unsigned v).toUnsignedWidth 64 with
      | .error er => .err er rest c
      | .ok v2 =>
        if v2 > c.settings.size_repr.max_size then
          .err (.maxSizeExceeded c.settings.size_repr.max_size v2) rest c
        else .ok v2 rest c

/-- `Encoder::write_bool` (src/ende/src/lib.rs:1365): the flatten channel is
consumed before the comparison; without it, one byte 1 or 0 is written. -/
def write_bool (c : Context) (value : Bool) : WriteResult :=
  match c.bool_flatten with
  | some boolean =>
    if boolean ≠ value then
      ⟨.err (.flattenError (.boolMismatch boolean value)), [],
        { c with bool_flatten := none }⟩
    else ⟨.ok, [], { c with bool_flatten := none }⟩
  | none => ⟨.ok, [if value then 1 else 0], c⟩

/-- `Encoder::write_uvariant` (src/ende/src/lib.rs:1293): `value` is the
unsigned discriminant, already converted into the maximum-width carrier by
`Opaque::from`. -/
def write_uvariant (c : Context) (value : Nat) : WriteResult :=
  match c.variant_flatten with
  | some variant =>
    if MaxWidthInt.unsigned value ≠ variant then
      ⟨.err (.flattenError (.variantMismatch variant (.unsigned value))), [],
        { c with variant_flatten := none }⟩
    else ⟨.ok, [], { c with variant_flatten := none }⟩
  | none =>
    match (MaxWidthInt.unsigned value).toUnsignedWidth
        c.settings.variant_repr.width.bits with
    | .error er => ⟨.err er, [], c⟩
    | .ok v =>
      ⟨.ok, write_unsigned_with c.settings.variant_repr.width.bits
        c.settings.variant_repr.num_encoding c.settings.variant_repr.endianness v, c⟩

/-- `Encoder::write_ivariant` (src/ende/src/lib.rs:1331). -/
def write_ivariant (c : Context) (value : Int) : WriteResult :=
  match c.variant_flatten with
  | some variant =>
    if MaxWidthInt.signed value ≠ variant then
      ⟨.err (.flattenError (.variantMismatch variant (.signed value))), [],
        { c with variant_flatten := none }⟩
    else ⟨.ok, [], { c with variant_flatten := none }⟩
  | none =>
    match (MaxWidthInt.signed value).toSignedWidth
        c.settings.variant_repr.width.bits with
    | .error er => ⟨.err er, [], c⟩
    | .ok v =>
      ⟨.ok, write_signed_with c.settings.variant_repr.width.bits
        c.settings.variant_repr.num_encoding c.settings.variant_repr.endianness v, c⟩

/-- `Encoder::read_ivariant` (src/ende/src/lib.rs:1755), returning the signed
discriminant for a target type of `tw` bits.  Mirrors the source exactly: the
`Bit8` arm of the width dispatch calls the UNSIGNED 8-bit read
(`read_u8_with`) and wraps the result in an unsigned carrier, while every
other arm calls the signed read of its width. -/
def read_ivariant (c : Context) (tw : Nat) (input : List Nat) : RRes Int :=
  match c.variant_flatten with
  | some variant =>
    match variant.toSignedWidth tw with
    | .error er => .err er input { c with variant_flatten := none }
    | .ok v => .ok v input { c with variant_flatten := none }
  | none =>
    match
      (match c.settings.variant_repr.width with
      | .bit8 =>
        match read_unsigned_with 8 c.settings.variant_repr.num_encoding
            c.settings.variant_repr.endianness input with
        | .err er rest => DRes.err er rest
        | .ok v rest => DRes.ok (MaxWidthInt.unsigned v) rest
      | .bit16 =>
        match read_signed_with 16 c.settings.variant_repr.num_encoding
            c.settings.variant_repr.endianness input with
        | .err er rest => DRes.err er rest
        | .ok v rest => DRes.ok (MaxWidthInt.signed v) rest
      | .bit32 =>
        match read_signed_with 32 c.settings.variant_repr.num_encoding
            c.settings.variant_repr.endianness input with
        | .err er rest => DRes.err er rest
        | .ok v rest => DRes.ok (MaxWidthInt.signed v) rest
      | .bit64 =>
        match read_signed_with 64 c.settings.variant_repr.num_encoding
            c.settings.variant_repr.endianness input with
        | .err er rest => DRes.err er rest
        | .ok v rest => DRes.ok (MaxWidthInt.signed v) rest
      | .bit128 =>
        match read_signed_with 128 c.settings.variant_repr.num_encoding
            c.settings.variant_repr.endianness input with
        | .err er rest => DRes.err er rest
        | .ok v rest => DRes.ok (MaxWidthInt.signed v) rest) with
    | .err er rest => .err er rest c
    | .ok op rest =>
      match op.toSignedWidth tw with
      | .error er => .err er rest c
      | .ok v => .ok v rest c

/-! ## Characters and strings -/

/-- Number of leading one bits of a byte (`u8::leading_ones`), for `b < 256`. -/
def leadingOnes8 (b : Nat) : Nat :=
  if b < 128 then 0
  else if b < 192 then 1
  else if b < 224 then 2
  else if b < 240 then 3
  else if b < 248 then 4
  else if b < 252 then 5
  else if b < 254 then 6
  else if b < 255 then 7
  else 8

/-- Validity test of `char::from_u32`: a Unicode scalar value. -/
def isScalar (ch : Nat) : Bool :=
  decide (ch < 0x110000) && !(decide (0xD800 ≤ ch) && decide (ch ≤ 0xDFFF))

/-- `char::encode_utf8` (Rust standard library, called by `write_char`):
standard UTF-8 framing of a scalar value. -/
def encode_utf8 (ch : Nat) : List Nat :=
  if ch < 0x80 then [ch]
  else if ch < 0x800 then
    [0xC0 ||| (ch >>> 6), 0x80 ||| (ch &&& 0x3F)]
  else if ch < 0x10000 then
    [0xE0 ||| (ch >>> 12), 0x80 ||| ((ch >>> 6) &&& 0x3F), 0x80 ||| (ch &&& 0x3F)]
  else
    [0xF0 ||| (ch >>> 18), 0x80 ||| ((ch >>> 12) &&& 0x3F),
      0x80 ||| ((ch >>> 6) &&& 0x3F), 0x80 ||| (ch &&& 0x3F)]

/-- `char::encode_utf16` (Rust standard library): one code unit for the BMP, a
high and a low surrogate for the supplementary planes. -/
def encode_utf16 (ch : Nat) : List Nat :=
  if ch < 0x10000 then [ch]
  else [0xD800 + ((ch - 0x10000) >>> 10), 0xDC00 + ((ch - 0x10000) &&& 0x3FF)]

/-- `Encoder::write_char` (src/ende/src/lib.rs:1386): UTF-8 bytes as-is; UTF-16
code units and the UTF-32 word go through the fixed 16/32-bit write with the
string endianness. -/
def write_char (se : StrEncoding) (e : Endianness) (ch : Nat) : List Nat :=
  match se with
  | .utf8 => encode_utf8 ch
  | .utf16 => ((encode_utf16 ch).map (write_unsigned_with 16 .fixed e)).flatten
  | .utf32 => write_unsigned_with 32 .fixed e ch

/-- The continuation-byte loop of the UTF-8 arm of `read_char`
(src/ende/src/lib.rs:1823).  Faithful to the source: `shift` grows by 6 every
iteration and the previous accumulator is shifted by the GROWN amount
(`shift += 6; ch = (ch << shift) | (buf & 0b0011_1111)`), and the `u32` left
shift discards bits at position 32 and above. -/
def utf8_cont_loop : Nat → Nat → Nat → List Nat → DRes Nat
  | 0, ch, _, input => .ok ch input
  | add + 1, ch, shift, input =>
    match input with
    | [] => .err .unexpectedEnd []
    | b :: rest =>
      if leadingOnes8 b ≠ 1 then .err (.stringError .invalidUtf8) rest
      else
        utf8_cont_loop add (((ch <<< (shift + 6)) % 2 ^ 32) ||| (b &&& 63))
          (shift + 6) rest

/-- `Encoder::read_char` (src/ende/src/lib.rs:1802), faithful to the source,
including its accumulation of the UTF-8 continuation shift and its
recombination of UTF-16 surrogate pairs. -/
def read_char (se : StrEncoding) (e : Endianness) (input : List Nat) : DRes Nat :=
  match se with
  | .utf8 =>
    match input with
    | [] => .err .unexpectedEnd []
    | b :: rest =>
      if leadingOnes8 b == 0 then
        match utf8_cont_loop 0 ((255 >>> 1) &&& b) 0 rest with
        | .err er r2 => .err er r2
        | .ok ch r2 =>
          if isScalar ch then .ok ch r2 else .err (.stringError .invalidUtf8) r2
      else if leadingOnes8 b == 1 ∨ leadingOnes8 b > 4 then
        .err (.stringError .invalidUtf8) rest
      else
        match utf8_cont_loop (leadingOnes8 b - 1)
            ((255 >>> (leadingOnes8 b + 1)) &&& b) 0 rest with
        | .err er r2 => .err er r2
        | .ok ch r2 =>
          if isScalar ch then .ok ch r2 else .err (.stringError .invalidUtf8) r2
  | .utf16 =>
    match read_unsigned_with 16 .fixed e input with
    | .err er rest => .err er rest
    | .ok buf rest =>
      if 0xD800 ≤ buf ∧ buf ≤ 0xDBFF then
        match read_unsigned_with 16 .fixed e rest with
        | .err er r2 => .err er r2
        | .ok lo r2 =>
          if ¬(0xDC00 ≤ lo ∧ lo ≤ 0xDFFF) then
            .err (.stringError .invalidUtf16) r2
          else
            if isScalar ((((buf - 0xD800) &&& 0x3FF) <<< 10) |||
                ((lo - 0xDC00) &&& 0x3FF)) then
              .ok ((((buf - 0xD800) &&& 0x3FF) <<< 10) |||
                ((lo - 0xDC00) &&& 0x3FF)) r2
            else .err (.stringError .invalidUtf16) r2
      else if 0xDC00 ≤ buf ∧ buf ≤ 0xDFFF then
        .err (.stringError .invalidUtf16) rest
      else if isScalar buf then .ok buf rest
      else .err (.stringError .invalidUtf16) rest
  | .utf32 =>
    match read_unsigned_with 32 .fixed e input with
    | .err er rest => .err er rest
    | .ok ch rest =>
      if isScalar ch then .ok ch rest else .err (.stringError .invalidUtf32) rest

/-- Result of a read through the SizeLimit wrapper: value or error, remaining
stream, and remaining readable budget. -/
inductive LRes (α : Type) where
  | ok (val : α) (rest : List Nat) (rem : Nat)
  | err (e : EErr) (rest : List Nat) (rem : Nat)
deriving DecidableEq, Repr

/-- Modelled from the spec: the `SizeLimit` reader adapter of the io module
(`pub mod io` is not under `src/`); §4.A — it wraps a reader, bounds the total
number of bytes readable, exposes `remaining_readable()`, and returns
`UnexpectedEnd` when the budget is exhausted.  A read larger than the
remaining budget fails without consuming; otherwise the exact-length read of
the underlying stream runs and the budget shrinks on success. -/
def readExactL (n : Nat) (input : List Nat) (rem : Nat) : LRes (List Nat) :=
  if n ≤ rem then
    match readExact n input with
    | .ok bytes rest => .ok bytes rest (rem - n)
    | .err er rest => .err er rest rem
  else .err .unexpectedEnd input rem

/-- Fixed-width unsigned read through the SizeLimit wrapper (the
`read_u16_with`/`read_u32_with` calls made by `read_char` inside
`read_str`). -/
def read_fixed_unsigned_L (B : Nat) (e : Endianness) (input : List Nat)
    (rem : Nat) : LRes Nat :=
  match readExactL (B / 8) input rem with
  | .err er rest rem2 => .err er rest rem2
  | .ok bytes rest rem2 =>
    match e with
    | .bigEndian => .ok (fromLeBytes bytes.reverse) rest rem2
    | .littleEndian => .ok (fromLeBytes bytes) rest rem2

/-- The UTF-8 continuation loop over the SizeLimit wrapper. -/
def utf8_cont_loop_L : Nat → Nat → Nat → List Nat → Nat → LRes Nat
  | 0, ch, _, input, rem => .ok ch input rem
  | add + 1, ch, shift, input, rem =>
    match readExactL 1 input rem with
    | .err er rest rem2 => .err er rest rem2
    | .ok bytes rest rem2 =>
      match bytes with
      | [b] =>
        if leadingOnes8 b ≠ 1 then .err (.stringError .invalidUtf8) rest rem2
        else
          utf8_cont_loop_L add (((ch <<< (shift + 6)) % 2 ^ 32) ||| (b &&& 63))
            (shift + 6) rest rem2
      | _ => .err .unexpectedEnd rest rem2

/-- `read_char` running over the SizeLimit-wrapped reader, as it does inside
`read_str`. -/
def read_char_L (se : StrEncoding) (e : Endianness) (input : List Nat)
    (rem : Nat) : LRes Nat :=
  match se with
  | .utf8 =>
    match readExactL 1 input rem with
    | .err er rest rem2 => .err er rest rem2
    | .ok bytes rest rem2 =>
      match bytes with
      | [b] =>
        if leadingOnes8 b == 0 then
          match utf8_cont_loop_L 0 ((255 >>> 1) &&& b) 0 rest rem2 with
          | .err er r2 m2 => .err er r2 m2
          | .ok ch r2 m2 =>
            if isScalar ch then .ok ch r2 m2
            else .err (.stringError .invalidUtf8) r2 m2
        else if leadingOnes8 b == 1 ∨ leadingOnes8 b > 4 then
          .err (.stringError .invalidUtf8) rest rem2
        else
          match utf8_cont_loop_L (leadingOnes8 b - 1)
              ((255 >>> (leadingOnes8 b + 1)) &&& b) 0 rest rem2 with
          | .err er r2 m2 => .err er r2 m2
          | .ok ch r2 m2 =>
            if isScalar ch then .ok ch r2 m2
            else .err (.stringError .invalidUtf8) r2 m2
      | _ => .err .unexpectedEnd rest rem2
  | .utf16 =>
    match read_fixed_unsigned_L 16 e input rem with
    | .err er rest rem2 => .err er rest rem2
    | .ok buf rest rem2 =>
      if 0xD800 ≤ buf ∧ buf ≤ 0xDBFF then
        match read_fixed_unsigned_L 16 e rest rem2 with
        | .err er r2 m2 => .err er r2 m2
        | .ok lo r2 m2 =>
          if ¬(0xDC00 ≤ lo ∧ lo ≤ 0xDFFF) then
            .err (.stringError .invalidUtf16) r2 m2
          else
            if isScalar ((((buf - 0xD800) &&& 0x3FF) <<< 10) |||
                ((lo - 0xDC00) &&& 0x3FF)) then
              .ok ((((buf - 0xD800) &&& 0x3FF) <<< 10) |||
                ((lo - 0xDC00) &&& 0x3FF)) r2 m2
            else .err (.stringError .invalidUtf16) r2 m2
      else if 0xDC00 ≤ buf ∧ buf ≤ 0xDFFF then
        .err (.stringError .invalidUtf16) rest rem2
      else if isScalar buf then .ok buf rest rem2
      else .err (.stringError .invalidUtf16) rest rem2
  | .utf32 =>
    match read_fixed_unsigned_L 32 e input rem with
    | .err er rest rem2 => .err er rest rem2
    | .ok ch rest rem2 =>
      if isScalar ch then .ok ch rest rem2
      else .err (.stringError .invalidUtf32) rest rem2

/-- The `CharIter` loop of `read_str` (src/ende/src/lib.rs:1903): each step
attempts a char read through the SizeLimit; an `UnexpectedEnd` with nonzero
remaining budget is treated as a hard error, while with zero remaining budget
it ends the iteration cleanly.  The fuel argument bounds the number of
iterations; `rem + 1` always suffices because a successful char read consumes
at least one byte of budget. -/
def str_loop (se : StrEncoding) (e : Endianness) :
    Nat → List Nat → List Nat → Nat → DRes (List Nat)
  | 0, _, input, _ => .err .unexpectedEnd input
  | fuel + 1, acc, input, rem =>
    match read_char_L se e input rem with
    | .err .unexpectedEnd rest rem2 =>
      if rem2 ≠ 0 then .err .unexpectedEnd rest
      else .ok acc.reverse rest
    | .err er rest _ => .err er rest
    | .ok ch rest rem2 => str_loop se e fuel (ch :: acc) rest rem2

/-- `Encoder::read_str` (src/ende/src/lib.rs:1897): read the length as a size,
clamp a SizeLimit of that many bytes over the reader, and collect chars until
the iterator ends.  Characters are represented by their scalar values. -/
def read_str (c : Context) (input : List Nat) : RRes (List Nat) :=
  match read_usize c input with
  | .err er rest c2 => .err er rest c2
  | .ok len rest c2 =>
    match str_loop c2.settings.string_repr.str_encoding
        c2.settings.string_repr.endianness (len + 1) [] rest len with
    | .err er r2 => .err er r2 c2
    | .ok chars r2 => .ok chars r2 c2

/-! ## Stream-modifier orchestration -/

/-- `encode_with_compression` (src/ende/src/compression/mod.rs:15).  The
wrapped encoder and the closure are abstracted by their outcomes: `fres` is
what the user closure `f` returns and `finishres` is the outcome of finishing
the compressing stream.  Modelled from the spec: §4.E — `Compress::finish`
(the stream module of the compression backend, not under `src/`) flushes and
finalises, and may fail; the `Encoder::finish` step itself always succeeds.
The source body is `let v = f(&mut encoder); encoder.finish()?.0.finish()?;
v`, with `encoder.add_compression(compression)?` before it (`addres`). -/
def encode_with_compression (addres : WRes) (fres : WRes) (finishres : WRes) :
    WRes :=
  match addres with
  | .err er => .err er
  | .ok =>
    match finishres with
    | .err er => .err er
    | .ok => fres

/-- `decode_with_compression` (src/ende/src/compression/mod.rs:32): the same
shape on the read side, for a decoded value of type `α`. -/
def decode_with_compression (α : Type) (addres : WRes) (fres : Except EErr α)
    (finishres : WRes) : Except EErr α :=
  match addres with
  | .err er => .error er
  | .ok =>
    match finishres with
    | .err er => .error er
    | .ok => fres

/-- The payload bits of a LEB128 group sequence: 7 bits per byte, groups in
little-endian order. -/
def payload : List Nat → Nat
  | [] => 0
  | b :: rest => (b &&& 127) + 128 * payload rest

/-! ## Concrete contexts used to exercise the operations -/

/-- An 8-bit fixed little-endian size representation: length prefixes occupy a
single byte. -/
def sizeRepr8 : SizeRepr := ⟨.littleEndian, .fixed, .bit8, 2 ^ 64 - 1⟩

/-- A context whose sizes are written as single bytes. -/
def ctxtSizeBit8 : Context :=
  { Context.new with settings := { BinSettings.new with size_repr := sizeRepr8 } }

/-- An 8-bit fixed little-endian variant representation. -/
def variantRepr8 : VariantRepr := ⟨.littleEndian, .fixed, .bit8⟩

/-- A context whose enum discriminants are written as single bytes. -/
def ctxtVariantBit8 : Context :=
  { Context.new with settings :=
    { BinSettings.new with variant_repr := variantRepr8 } }

/-- A 64-bit size representation whose max_size is 5. -/
def sizeReprMax5 : SizeRepr := ⟨.littleEndian, .fixed, .bit64, 5⟩

/-- A context with `max_size = 5` and the size flatten channel absent. -/
def ctxtMax5 : Context :=
  { Context.new with settings := { BinSettings.new with size_repr := sizeReprMax5 } }

/-- A context with `max_size = 5` and the size flatten channel armed with
10. -/
def ctxtMax5Armed10 : Context := { ctxtMax5 with size_flatten := some 10 }

/-- A context whose bool flatten channel is armed with `true`. -/
def ctxtBoolArmedTrue : Context := { Context.new with bool_flatten := some true }

/-! ## Bit-level helper lemmas -/

theorem testBit_add_mul_two_pow_lt (a b n i : Nat) (ha : a < 2 ^ n) :
    (a + b * 2 ^ n).testBit i = if i < n then a.testBit i else b.testBit (i - n) := by
  rcases Nat.lt_or_ge i n with hi | hi
  · rw [if_pos hi, Nat.testBit_to_div_mod, Nat.testBit_to_div_mod]
    have h1 : a + b * 2 ^ n = a + 2 ^ i * (b * 2 ^ (n - i - 1) * 2) := by
      have : (2:Nat) ^ n = 2 ^ i * (2 ^ (n - i - 1) * 2) := by
        rw [← pow_succ, ← pow_add]
        congr 1
        omega
      rw [this]
      ring
    rw [h1, Nat.add_mul_div_left _ _ (Nat.pos_pow_of_pos i (by omega)),
      Nat.add_mul_mod_self_right]
  · rw [if_neg (by omega), Nat.testBit_to_div_mod, Nat.testBit_to_div_mod]
    have h1 : (a + b * 2 ^ n) / 2 ^ i = b / 2 ^ (i - n) := by
      have hpow : (2:Nat) ^ i = 2 ^ n * 2 ^ (i - n) := by
        rw [← pow_add]
        congr 1
        omega
      rw [hpow, ← Nat.div_div_eq_div_mul]
      have h2 : a + b * 2 ^ n = a + 2 ^ n * b := by ring
      rw [h2, Nat.add_mul_div_left _ _ (Nat.pos_pow_of_pos n (by omega)),
        Nat.div_eq_of_lt ha, Nat.zero_add]
    rw [h1]

theorem lor_shl_of_lt (a b n : Nat) (h : a < 2 ^ n) : a ||| b <<< n = a + b <<< n := by
  apply Nat.eq_of_testBit_eq
  intro i
  have hshl : b <<< n = b * 2 ^ n := Nat.shiftLeft_eq b n
  rw [Nat.testBit_lor, hshl, testBit_add_mul_two_pow_lt a b n i h, ← hshl,
    Nat.testBit_shiftLeft]
  rcases Nat.lt_or_ge i n with hi | hi
  · rw [if_pos hi]
    have : decide (i ≥ n) = false := by simp; omega
    rw [this]
    simp
  · rw [if_neg (by omega)]
    have h1 : decide (i ≥ n) = true := by simp [hi]
    have h2 : a.testBit i = false :=
      Nat.testBit_lt_two_pow (Nat.lt_of_lt_of_le h (Nat.pow_le_pow_right (by omega) hi))
    rw [h1, h2]
    simp

theorem shl_lor_distrib (x y s : Nat) : (x ||| y) <<< s = x <<< s ||| y <<< s := by
  apply Nat.eq_of_testBit_eq
  intro i
  simp only [Nat.testBit_shiftLeft, Nat.testBit_lor]
  cases Decidable.em (i ≥ s) with
  | inl hp => simp [hp]
  | inr hp => simp [hp]

theorem shl_or_shl (a b s w : Nat) (ha : a < 2 ^ w) :
    a <<< s ||| b <<< (s + w) = (a + b <<< w) <<< s := by
  have h1 : b <<< (s + w) = (b <<< w) <<< s := by
    rw [Nat.shiftLeft_eq, Nat.shiftLeft_eq, Nat.shiftLeft_eq, pow_add]
    ring
  rw [h1, ← shl_lor_distrib, lor_shl_of_lt a b w ha]

theorem shl_mod_or_merge (a b s w B : Nat) (ha : a < 2 ^ w) :
    (a <<< s) % 2 ^ B ||| (b <<< (s + w)) % 2 ^ B = ((a + b <<< w) <<< s) % 2 ^ B := by
  apply Nat.eq_of_testBit_eq
  intro i
  simp only [Nat.testBit_lor, Nat.testBit_mod_two_pow]
  rw [← Bool.and_or_distrib_left, ← Nat.testBit_lor, shl_or_shl a b s w ha]

theorem ones_shl_mod (B m : Nat) (h : m ≤ B) :
    ((2 ^ B - 1) <<< m) % 2 ^ B = 2 ^ B - 2 ^ m := by
  have h2 : (1:Nat) ≤ 2 ^ B := Nat.one_le_two_pow
  have h3 : (2:Nat) ^ m ≤ 2 ^ B := Nat.pow_le_pow_right (by omega) h
  have h4 : (1:Nat) ≤ 2 ^ m := Nat.one_le_two_pow
  have h1 : (2 ^ B - 1) <<< m = 2 ^ B * (2 ^ m - 1) + (2 ^ B - 2 ^ m) := by
    rw [Nat.shiftLeft_eq]
    zify [h2, h3, h4]
    ring
  rw [h1, Nat.mul_add_mod, Nat.mod_eq_of_lt (by omega)]

theorem xor_ones (B a : Nat) (h : a < 2 ^ B) : (2 ^ B - 1) ^^^ a = 2 ^ B - 1 - a := by
  apply Nat.eq_of_testBit_eq
  intro i
  have h1 : 2 ^ B - 1 - a = 2 ^ B - (a + 1) := by omega
  rw [Nat.testBit_xor, h1, Nat.testBit_two_pow_sub_succ h, Nat.testBit_two_pow_sub_one]
  rcases Nat.lt_or_ge i B with hi | hi
  · simp [hi]
  · have h2 : a.testBit i = false :=
      Nat.testBit_lt_two_pow (Nat.lt_of_lt_of_le h (Nat.pow_le_pow_right (by omega) hi))
    simp [h2, Nat.not_lt.mpr hi]

/-! ## Byte-level facts, decided over the bounded range of a byte -/

theorem byte_and_127 : ∀ b : Nat, b < 128 → b &&& 127 = b := by decide

theorem byte_or_and_127 : ∀ b : Nat, b < 128 → (b ||| 128) &&& 127 = b := by decide

theorem byte_or_cont : ∀ b : Nat, b < 128 → ((b ||| 128) &&& 128 == 0) = false := by decide

theorem byte_no_cont : ∀ b : Nat, b < 128 → (b &&& 128 == 0) = true := by decide

theorem byte_and_64_iff : ∀ b : Nat, b < 128 → (b &&& 64 ≠ 0 ↔ 64 ≤ b) := by decide

/-! ## Fixed-width byte codec lemmas -/

theorem toLeBytes_length (n : Nat) : ∀ v, (toLeBytes n v).length = n := by
  induction n with
  | zero => intro v; rfl
  | succ n ih => intro v; simp [toLeBytes, ih]

theorem fromLe_toLe (n : Nat) : ∀ v, v < 2 ^ (8 * n) → fromLeBytes (toLeBytes n v) = v := by
  induction n with
  | zero =>
    intro v hv
    simp only [Nat.mul_zero, pow_zero, Nat.lt_one_iff] at hv
    simp [toLeBytes, fromLeBytes, hv]
  | succ n ih =>
    intro v hv
    have hp : (2:Nat) ^ (8 * (n + 1)) = 2 ^ (8 * n) * 256 := by
      rw [show 8 * (n + 1) = 8 * n + 8 by omega, pow_add]
      norm_num
    have hv2 : v / 256 < 2 ^ (8 * n) := by omega
    simp only [toLeBytes, fromLeBytes, ih (v / 256) hv2]
    omega

theorem readExact_append (n : Nat) (bytes rest : List Nat) (h : bytes.length = n) :
    readExact n (bytes ++ rest) = .ok bytes rest := by
  subst h
  unfold readExact
  rw [if_pos (by simp)]
  simp

/-! ## Unsigned LEB128 round-trip -/

theorem uleb128_decode_encode (B : Nat) :
    ∀ v result shift rest, shift < B → v < 2 ^ (B - shift) → result < 2 ^ shift →
      uleb128_decode B (uleb128_encode v ++ rest) result shift =
        .ok (result + v <<< shift) rest := by
  intro v
  induction v using Nat.strong_induction_on with
  | _ v ih =>
    intro result shift rest hs hv hr
    have hmodlt : v % 128 < 128 := Nat.mod_lt v (by omega)
    have hpowsplit : (2:Nat) ^ (B - shift) * 2 ^ shift = 2 ^ B := by
      rw [← pow_add]
      congr 1
      omega
    have hshl_lt : (v % 128) <<< shift < 2 ^ B := by
      rw [Nat.shiftLeft_eq]
      calc (v % 128) * 2 ^ shift ≤ v * 2 ^ shift :=
            Nat.mul_le_mul_right _ (Nat.mod_le v 128)
        _ < 2 ^ (B - shift) * 2 ^ shift := by
            have hpos : 0 < 2 ^ shift := Nat.pos_pow_of_pos _ (by omega)
            exact (Nat.mul_lt_mul_right hpos).mpr hv
        _ = 2 ^ B := hpowsplit
    have hms : (v % 128) <<< shift % 2 ^ B = (v % 128) <<< shift :=
      Nat.mod_eq_of_lt hshl_lt
    have hlor : result ||| (v % 128) <<< shift = result + (v % 128) <<< shift :=
      lor_shl_of_lt result (v % 128) shift hr
    rw [uleb128_encode.eq_def]
    by_cases hd : v / 128 = 0
    · have hveq : v % 128 = v := by omega
      rw [if_neg (by simp [hd])]
      rw [show ([v % 128] ++ rest) = v % 128 :: rest from rfl, uleb128_decode.eq_def]
      simp only []
      rw [if_neg (by omega)]
      simp only [byte_no_cont (v % 128) hmodlt, if_true]
      rw [byte_and_127 (v % 128) hmodlt, hms, hlor, hveq]
    · rw [if_pos (by simp [hd])]
      rw [show (((v % 128 ||| 128) :: uleb128_encode (v / 128)) ++ rest)
          = (v % 128 ||| 128) :: (uleb128_encode (v / 128) ++ rest) from rfl]
      rw [uleb128_decode.eq_def]
      simp only []
      rw [if_neg (by omega)]
      simp only [byte_or_cont (v % 128) hmodlt, Bool.false_eq_true, if_false]
      rw [byte_or_and_127 (v % 128) hmodlt, hms, hlor]
      have hv128 : 128 ≤ v := by omega
      have hbs : 7 < B - shift := by
        by_contra hc
        have h1 : (2:Nat) ^ (B - shift) ≤ 2 ^ 7 :=
          Nat.pow_le_pow_right (by omega) (by omega)
        omega
      have ihres := ih (v / 128) (Nat.div_lt_self (by omega) (by omega))
        (result + (v % 128) <<< shift) (shift + 7) rest
        (by omega)
        (by
          have h2 : (2:Nat) ^ (B - shift) = 2 ^ (B - shift - 7) * 128 := by
            rw [show (128:Nat) = 2 ^ 7 by norm_num, ← pow_add]
            congr 1
            omega
          have h3 : v / 128 < 2 ^ (B - shift - 7) := Nat.div_lt_of_lt_mul (by omega)
          rw [Nat.sub_sub] at h3
          exact h3)
        (by
          have h1 : (v % 128) <<< shift ≤ 127 * 2 ^ shift := by
            rw [Nat.shiftLeft_eq]
            exact Nat.mul_le_mul_right _ (by omega)
          have h2 : (2:Nat) ^ (shift + 7) = 2 ^ shift * 128 := by
            rw [pow_add]
            norm_num
          omega)
      rw [ihres]
      congr 1
      have hsum : (v % 128) <<< shift + (v / 128) <<< (shift + 7) = v <<< shift := by
        rw [Nat.shiftLeft_eq, Nat.shiftLeft_eq, Nat.shiftLeft_eq,
          show shift + 7 = 7 + shift by omega, pow_add,
          show (2:Nat) ^ 7 = 128 by norm_num]
        have hmd : v % 128 + 128 * (v / 128) = v := Nat.mod_add_div v 128
        calc v % 128 * 2 ^ shift + v / 128 * (128 * 2 ^ shift)
            = (v % 128 + 128 * (v / 128)) * 2 ^ shift := by ring
          _ = v * 2 ^ shift := by rw [hmd]
      omega

theorem read_write_unsigned_with (B : Nat) (hB : 0 < B) (h8 : 8 * (B / 8) = B)
    (enc : NumEncoding) (e : Endianness) (v : Nat) (rest : List Nat) (hv : v < 2 ^ B) :
    read_unsigned_with B enc e (write_unsigned_with B enc e v ++ rest) = .ok v rest := by
  have hleb : uleb128_decode B (uleb128_encode v ++ rest) 0 0 = .ok v rest := by
    have h := uleb128_decode_encode B v 0 0 rest hB (by simpa using hv) (by norm_num)
    simpa using h
  cases enc with
  | fixed =>
    cases e with
    | littleEndian =>
      simp only [write_unsigned_with, read_unsigned_with]
      rw [readExact_append _ _ _ (toLeBytes_length (B / 8) v)]
      simp only []
      rw [fromLe_toLe (B / 8) v (by rw [h8]; exact hv)]
    | bigEndian =>
      simp only [write_unsigned_with, read_unsigned_with]
      rw [readExact_append _ _ _ (by simp [toLeBytes_length])]
      simp only []
      rw [List.reverse_reverse, fromLe_toLe (B / 8) v (by rw [h8]; exact hv)]
  | leb128 => simpa only [write_unsigned_with, read_unsigned_with] using hleb
  | protobufWasteful => simpa only [write_unsigned_with, read_unsigned_with] using hleb
  | protobufZigzag => simpa only [write_unsigned_with, read_unsigned_with] using hleb

/-! ## Signed LEB128 round-trip -/

theorem shl_mod_trunc (x s k : Nat) : (x <<< s) % 2 ^ (s + k) = (x % 2 ^ k) <<< s := by
  rw [Nat.shiftLeft_eq, Nat.shiftLeft_eq, pow_add, Nat.mul_comm (2 ^ s) (2 ^ k)]
  exact Nat.mul_mod_mul_right (2 ^ s) x (2 ^ k)

theorem ones_eq_shl (B m : Nat) (h : m ≤ B) :
    2 ^ B - 2 ^ m = (2 ^ (B - m) - 1) <<< m := by
  rw [Nat.shiftLeft_eq]
  have h1 : (2:Nat) ^ B = 2 ^ (B - m) * 2 ^ m := by
    rw [← pow_add]
    congr 1
    omega
  have h2 : (1:Nat) ≤ 2 ^ (B - m) := Nat.one_le_two_pow
  have h3 : (1:Nat) ≤ 2 ^ m := Nat.one_le_two_pow
  have h4 : (2:Nat) ^ m ≤ 2 ^ B := Nat.pow_le_pow_right (by omega) h
  zify [h2, h3, h4]
  have h1i : ((2:Int)) ^ B = 2 ^ (B - m) * 2 ^ m := by exact_mod_cast h1
  linear_combination h1i

theorem toSigned_of_lt (B r : Nat) (h : r < 2 ^ (B - 1)) : toSigned B r = (r : Int) :=
  if_pos h

theorem toSigned_of_ge (B r : Nat) (h : 2 ^ (B - 1) ≤ r) :
    toSigned B r = (r : Int) - 2 ^ B :=
  if_neg (by omega)

theorem leb128_measure (value : Int)
    (h : ((value % 128).toNat &&& 64 ≠ 0 ∧ value / 128 ≠ -1) ∨
      (¬((value % 128).toNat &&& 64 ≠ 0) ∧ value / 128 ≠ 0)) :
    (value / 128).natAbs < value.natAbs := by
  have h64 := byte_and_64_iff (value % 128).toNat (by omega)
  rcases h with ⟨hneg, hsh⟩ | ⟨hneg, hsh⟩
  · have := h64.mp hneg
    omega
  · have : ¬ 64 ≤ (value % 128).toNat := fun hh => hneg (h64.mpr hh)
    omega

theorem leb128_decode_encode (B : Nat) :
    ∀ n : Nat, ∀ v : Int, v.natAbs = n → ∀ result shift rest, shift < B →
      result < 2 ^ shift →
      -(2 ^ (B - shift - 1) : Int) ≤ v → v < 2 ^ (B - shift - 1) →
      leb128_decode B (leb128_encode v ++ rest) result shift =
        .ok ((result : Int) + v * 2 ^ shift) rest := by
  intro n
  induction n using Nat.strong_induction_on with
  | _ n ih =>
    intro v hn result shift rest hs hr hlo hhi
    have hblt : (v % 128).toNat < 128 := by omega
    have hbv : (((v % 128).toNat : Int)) = v % 128 := by omega
    have hdm : v % 128 + 128 * (v / 128) = v := Int.emod_add_ediv v 128
    have hneg_iff := byte_and_64_iff _ hblt
    have tpos : 0 < 2 ^ shift := Nat.pos_pow_of_pos shift (by omega)
    rw [leb128_encode.eq_def]
    by_cases hC : ((v % 128).toNat &&& 64 ≠ 0 ∧ v / 128 ≠ -1) ∨
      (¬((v % 128).toNat &&& 64 ≠ 0) ∧ v / 128 ≠ 0)
    · -- the encoder emits a continuation byte
      rw [if_pos hC]
      have hk8 : shift + 8 ≤ B := by
        by_contra hk
        have hek : B - shift - 1 ≤ 6 := by omega
        have hpk : (2:Int) ^ (B - shift - 1) ≤ 2 ^ 6 :=
          pow_le_pow_right₀ (by norm_num) hek
        have hpk64 : (2:Int) ^ 6 = 64 := by norm_num
        rcases hC with ⟨hneg, hsh⟩ | ⟨hneg, hsh⟩
        · have h64 : 64 ≤ (v % 128).toNat := hneg_iff.mp hneg
          omega
        · have h64 : ¬ 64 ≤ (v % 128).toNat := fun h => hneg (hneg_iff.mpr h)
          omega
      rw [show (((v % 128).toNat ||| 128) :: leb128_encode (v / 128)) ++ rest
          = ((v % 128).toNat ||| 128) :: (leb128_encode (v / 128) ++ rest) from rfl]
      rw [leb128_decode.eq_def]
      simp only []
      rw [if_neg (by omega)]
      simp only [byte_or_cont _ hblt, Bool.false_eq_true, if_false]
      rw [byte_or_and_127 _ hblt]
      have hp7 : (2:Nat) ^ (shift + 7) = 128 * 2 ^ shift := by
        rw [pow_add, Nat.mul_comm]
        norm_num
      have hshl_lt : ((v % 128).toNat) <<< shift < 2 ^ B := by
        rw [Nat.shiftLeft_eq]
        calc (v % 128).toNat * 2 ^ shift < 128 * 2 ^ shift :=
              (Nat.mul_lt_mul_right tpos).mpr hblt
          _ = 2 ^ (shift + 7) := hp7.symm
          _ ≤ 2 ^ B := Nat.pow_le_pow_right (by omega) (by omega)
      rw [Nat.mod_eq_of_lt hshl_lt, lor_shl_of_lt _ _ _ hr]
      have hmeas : (v / 128).natAbs < n := hn ▸ leb128_measure v hC
      have hpow : (2:Int) ^ (B - shift - 1) = 2 ^ (B - (shift + 7) - 1) * 128 := by
        rw [show (128:Int) = 2 ^ 7 by norm_num, ← pow_add]
        congr 1
        omega
      have ihres := ih _ hmeas (v / 128) rfl (result + (v % 128).toNat <<< shift)
        (shift + 7) rest
        (by omega)
        (by
          rw [Nat.shiftLeft_eq]
          have h1 : (v % 128).toNat * 2 ^ shift ≤ 127 * 2 ^ shift :=
            Nat.mul_le_mul_right _ (by omega)
          omega)
        (by
          rw [Int.le_ediv_iff_mul_le (by omega : (0:Int) < 128)]
          nlinarith [hpow, hlo])
        (by
          rw [Int.ediv_lt_iff_lt_mul (by omega : (0:Int) < 128)]
          nlinarith [hpow, hhi])
      rw [ihres]
      congr 1
      rw [Nat.shiftLeft_eq]
      push_cast
      have hp7i : (2:Int) ^ (shift + 7) = 128 * 2 ^ shift := by
        rw [show (128:Int) = 2 ^ 7 by norm_num, ← pow_add]
        congr 1
        omega
      linear_combination ((2:Int) ^ shift) * hbv + ((2:Int) ^ shift) * hdm +
        (v / 128) * hp7i
    · -- the encoder stops: this is the final byte
      rw [if_neg hC]
      rw [show ([(v % 128).toNat] ++ rest) = (v % 128).toNat :: rest from rfl]
      rw [leb128_decode.eq_def]
      simp only []
      rw [if_neg (by omega)]
      simp only [byte_no_cont _ hblt, if_true]
      rw [byte_and_127 _ hblt]
      push_neg at hC
      obtain ⟨hC1, hC2⟩ := hC
      by_cases hneg : 64 ≤ (v % 128).toNat
      · -- the final byte carries the sign bit: the value is negative
        have hand : (v % 128).toNat &&& 64 ≠ 0 := hneg_iff.mpr hneg
        have hsh : v / 128 = -1 := hC1 hand
        have hvrange : -64 ≤ v ∧ v ≤ -1 := by constructor <;> omega
        have hveq : v % 128 = v + 128 := by omega
        rcases Nat.lt_or_ge (shift + 7) B with h7lt | h7ge
        · -- sign extension is applied
          rw [if_pos ⟨h7lt, hand⟩]
          have hp7B : (2:Nat) ^ (shift + 7) ≤ 2 ^ B :=
            Nat.pow_le_pow_right (by omega) (by omega)
          have hp7 : (2:Nat) ^ (shift + 7) = 128 * 2 ^ shift := by
            rw [pow_add, Nat.mul_comm]
            norm_num
          have hshl_lt : ((v % 128).toNat) <<< shift < 2 ^ B := by
            rw [Nat.shiftLeft_eq]
            calc (v % 128).toNat * 2 ^ shift < 128 * 2 ^ shift :=
                  (Nat.mul_lt_mul_right tpos).mpr hblt
              _ = 2 ^ (shift + 7) := hp7.symm
              _ ≤ 2 ^ B := hp7B
          rw [Nat.mod_eq_of_lt hshl_lt, lor_shl_of_lt _ _ _ hr,
            ones_shl_mod B (shift + 7) (by omega),
            ones_eq_shl B (shift + 7) (by omega),
            lor_shl_of_lt _ _ _
              (by
                rw [Nat.shiftLeft_eq]
                have h1 : (v % 128).toNat * 2 ^ shift ≤ 127 * 2 ^ shift :=
                  Nat.mul_le_mul_right _ (by omega)
                omega),
            ← ones_eq_shl B (shift + 7) (by omega)]
          have h64T : 64 * 2 ^ shift ≤ (v % 128).toNat * 2 ^ shift :=
            Nat.mul_le_mul_right _ hneg
          have hs6 : (2:Nat) ^ (shift + 6) = 64 * 2 ^ shift := by
            rw [pow_add, Nat.mul_comm]
            norm_num
          have hs67 : (2:Nat) ^ (shift + 7) = 2 * 2 ^ (shift + 6) := by
            rw [pow_succ, Nat.mul_comm]
          have hB1 : (2:Nat) ^ B = 2 * 2 ^ (B - 1) := by
            rw [Nat.mul_comm, ← pow_succ]
            congr 1
            omega
          have hs6B : (2:Nat) ^ (shift + 6) ≤ 2 ^ (B - 1) :=
            Nat.pow_le_pow_right (by omega) (by omega)
          rw [toSigned_of_ge B _ (by rw [Nat.shiftLeft_eq]; omega)]
          congr 1
          rw [Nat.shiftLeft_eq]
          push_cast [Nat.cast_sub hp7B, Nat.cast_sub (Nat.one_le_two_pow)]
          have hp7i : (2:Int) ^ (shift + 7) = 128 * 2 ^ shift := by
            rw [show (128:Int) = 2 ^ 7 by norm_num, ← pow_add]
            congr 1
            omega
          linear_combination ((2:Int) ^ shift) * hbv + ((2:Int) ^ shift) * hdm +
            (v / 128) * hp7i - (128 * (2:Int) ^ shift) * hsh
        · -- no sign extension: either the shift is exhausted or the width is
          rw [if_neg (by omega)]
          rcases Nat.eq_or_lt_of_le h7ge with h7eq | h7gt
          · -- shift + 7 = B
            have hp7 : (2:Nat) ^ B = 128 * 2 ^ shift := by
              rw [h7eq, pow_add, Nat.mul_comm]
              norm_num
            have hshl_lt : ((v % 128).toNat) <<< shift < 2 ^ B := by
              rw [Nat.shiftLeft_eq, hp7]
              exact (Nat.mul_lt_mul_right tpos).mpr hblt
            rw [Nat.mod_eq_of_lt hshl_lt, lor_shl_of_lt _ _ _ hr]
            have h64T : 64 * 2 ^ shift ≤ (v % 128).toNat * 2 ^ shift :=
              Nat.mul_le_mul_right _ hneg
            have hs6 : (2:Nat) ^ (B - 1) = 64 * 2 ^ shift := by
              rw [show B - 1 = shift + 6 by omega, pow_add, Nat.mul_comm]
              norm_num
            rw [toSigned_of_ge B _ (by rw [Nat.shiftLeft_eq]; omega)]
            congr 1
            rw [Nat.shiftLeft_eq]
            push_cast
            have hpB : ((2:Int) ^ B) = 128 * 2 ^ shift := by
              rw [show (128:Int) = 2 ^ 7 by norm_num, ← pow_add]
              congr 1
              omega
            linear_combination ((2:Int) ^ shift) * hbv + ((2:Int) ^ shift) * hdm +
              (v / 128) * hpB - ((2:Int) ^ B) * hsh
          · -- B < shift + 7: the top bits of the final byte are truncated away
            have hk1 : 1 ≤ B - shift := by omega
            have hk6 : B - shift ≤ 6 := by omega
            have hKi : (((2:Nat) ^ (B - shift) : Nat) : Int) = 2 ^ (B - shift) := by
              push_cast
              ring
            have hKhalf : ((2:Int) ^ (B - shift)) = 2 * 2 ^ (B - shift - 1) := by
              have h := pow_succ (2:Int) (B - shift - 1)
              rw [show (B - shift - 1) + 1 = B - shift by omega] at h
              rw [h]
              ring
            have hKle : (2:Nat) ^ (B - shift) ≤ 128 := by
              calc (2:Nat) ^ (B - shift) ≤ 2 ^ 6 := Nat.pow_le_pow_right (by omega) hk6
                _ ≤ 128 := by norm_num
            have hKpos : 0 < (2:Nat) ^ (B - shift) := Nat.pos_pow_of_pos _ (by omega)
            have hm : (v % 128).toNat % 2 ^ (B - shift) = (v + 2 ^ (B - shift)).toNat := by
              have h128 : 2 ^ (B - shift) * 2 ^ (7 - (B - shift)) = 128 := by
                rw [← pow_add, show B - shift + (7 - (B - shift)) = 7 by omega]
                norm_num
              have hlt : (v + 2 ^ (B - shift)).toNat < 2 ^ (B - shift) := by omega
              have hsplit : (v % 128).toNat
                  = (v + 2 ^ (B - shift)).toNat + (128 - 2 ^ (B - shift)) := by omega
              have hdvd : (2:Nat) ^ (B - shift) ∣ 128 - 2 ^ (B - shift) := by
                apply Nat.dvd_sub'
                · exact ⟨2 ^ (7 - (B - shift)), h128.symm⟩
                · exact dvd_rfl
              rw [hsplit, Nat.add_mod, Nat.mod_eq_zero_of_dvd hdvd,
                Nat.add_zero, Nat.mod_eq_of_lt (Nat.mod_lt _ hKpos), Nat.mod_eq_of_lt hlt]
            rw [show (2:Nat) ^ B = 2 ^ (shift + (B - shift)) by congr 1; omega,
              shl_mod_trunc, hm, lor_shl_of_lt _ _ _ hr]
            have hmge : 2 ^ (B - shift - 1) ≤ (v + 2 ^ (B - shift)).toNat := by
              have h1 : (((2:Nat) ^ (B - shift - 1) : Nat) : Int) = 2 ^ (B - shift - 1) := by
                push_cast
                ring
              omega
            have hB1split : (2:Nat) ^ (B - 1) = 2 ^ (B - shift - 1) * 2 ^ shift := by
              rw [← pow_add]
              congr 1
              omega
            have hge : 2 ^ (B - 1) ≤ result + (v + 2 ^ (B - shift)).toNat <<< shift := by
              rw [Nat.shiftLeft_eq, hB1split]
              have h1 := Nat.mul_le_mul_right (2 ^ shift) hmge
              omega
            rw [toSigned_of_ge B _ hge]
            congr 1
            rw [Nat.shiftLeft_eq]
            push_cast
            have hmcast : (((v + 2 ^ (B - shift)).toNat : Nat) : Int)
                = v + 2 ^ (B - shift) := by omega
            rw [hmcast]
            have hKB : ((2:Int) ^ (B - shift)) * 2 ^ shift = 2 ^ B := by
              rw [← pow_add]
              congr 1
              omega
            linear_combination hKB
      · -- the final byte has the sign bit clear: the value is nonnegative
        have hand0 : (v % 128).toNat &&& 64 = 0 := by
          by_contra h
          exact hneg (hneg_iff.mp h)
        have hsh : v / 128 = 0 := hC2 hand0
        have hveq : v % 128 = v := by omega
        rw [if_neg (by
          rintro ⟨h1, h2⟩
          exact h2 hand0)]
        have hba : (((2:Nat) ^ (B - shift - 1) : Nat) : Int) = 2 ^ (B - shift - 1) := by
          push_cast
          ring
        have hblt2 : (v % 128).toNat < 2 ^ (B - shift - 1) := by omega
        have hprod : (v % 128).toNat * 2 ^ shift ≤ (2 ^ (B - shift - 1) - 1) * 2 ^ shift :=
          Nat.mul_le_mul_right _ (by omega)
        have hXT : (2:Nat) ^ (B - shift - 1) * 2 ^ shift = 2 ^ (B - 1) := by
          rw [← pow_add]
          congr 1
          omega
        have hsubmul : ((2:Nat) ^ (B - shift - 1) - 1) * 2 ^ shift
            = 2 ^ (B - 1) - 2 ^ shift := by
          rw [Nat.sub_mul, one_mul, hXT]
        have hbound : (v % 128).toNat * 2 ^ shift ≤ 2 ^ (B - 1) - 2 ^ shift := by
          rw [← hsubmul]
          exact hprod
        have hsB1 : (2:Nat) ^ shift ≤ 2 ^ (B - 1) := Nat.pow_le_pow_right (by omega) (by omega)
        have hshl_lt : ((v % 128).toNat) <<< shift < 2 ^ B := by
          rw [Nat.shiftLeft_eq]
          have h1 : (2:Nat) ^ (B - 1) ≤ 2 ^ B := Nat.pow_le_pow_right (by omega) (by omega)
          omega
        rw [Nat.mod_eq_of_lt hshl_lt, lor_shl_of_lt _ _ _ hr]
        have hlt : result + (v % 128).toNat <<< shift < 2 ^ (B - 1) := by
          rw [Nat.shiftLeft_eq]
          omega
        rw [toSigned_of_lt B _ hlt]
        congr 1
        rw [Nat.shiftLeft_eq]
        push_cast
        linear_combination ((2:Int) ^ shift) * hbv + ((2:Int) ^ shift) * hdm -
          (128 * (2:Int) ^ shift) * hsh

/-! ## Zigzag and reinterpret-cast round-trips -/

theorem two_pow_split (B : Nat) (hB : 0 < B) : (2:Int) ^ B = 2 * 2 ^ (B - 1) := by
  have h := pow_succ (2:Int) (B - 1)
  rw [show (B - 1) + 1 = B by omega] at h
  rw [h]
  ring

theorem two_pow_split_nat (B : Nat) (hB : 0 < B) : (2:Nat) ^ B = 2 * 2 ^ (B - 1) := by
  have h := pow_succ (2:Nat) (B - 1)
  rw [show (B - 1) + 1 = B by omega] at h
  rw [h]
  ring

theorem emod_toNat_lt (B : Nat) (v : Int) : (v % (2 ^ B : Int)).toNat < 2 ^ B := by
  have hpos : (0:Int) < 2 ^ B := by positivity
  have h1 := Int.emod_lt_of_pos v hpos
  have h2 := Int.emod_nonneg v (by omega : (2 ^ B : Int) ≠ 0)
  have hc : (((2:Nat) ^ B : Nat) : Int) = 2 ^ B := by push_cast; ring
  omega

theorem toSigned_emod (B : Nat) (hB : 0 < B) (v : Int)
    (hlo : -(2 ^ (B - 1) : Int) ≤ v) (hhi : v < 2 ^ (B - 1)) :
    toSigned B ((v % (2 ^ B : Int)).toNat) = v := by
  have hBB := two_pow_split B hB
  have hc : (((2:Nat) ^ B : Nat) : Int) = 2 ^ B := by push_cast; ring
  have hc1 : (((2:Nat) ^ (B - 1) : Nat) : Int) = 2 ^ (B - 1) := by push_cast; ring
  rcases Int.lt_or_le v 0 with hv | hv
  · have hmod : v % (2 ^ B : Int) = v + 2 ^ B := by
      have h1 : (v + 2 ^ B * 1) % (2 ^ B : Int) = v % 2 ^ B :=
        Int.add_mul_emod_self_left v (2 ^ B) 1
      have h2 : (v + 2 ^ B) % (2 ^ B : Int) = v + 2 ^ B :=
        Int.emod_eq_of_lt (by omega) (by omega)
      rw [← h2]
      rw [Int.mul_one] at h1
      rw [h1]
    rw [hmod, toSigned_of_ge B _ (by omega)]
    omega
  · have hmod : v % (2 ^ B : Int) = v := Int.emod_eq_of_lt (by omega) (by omega)
    rw [hmod, toSigned_of_lt B _ (by omega)]
    omega

theorem zigzag_lt (B : Nat) (v : Int) : zigzagEncode B v < 2 ^ B := by
  unfold zigzagEncode
  have h1 : ((2 * v) % (2 ^ B : Int)).toNat < 2 ^ B := emod_toNat_lt B (2 * v)
  have h2 : (if v < 0 then 2 ^ B - 1 else 0) < 2 ^ B := by
    split
    · omega
    · positivity
  exact Nat.xor_lt_two_pow h1 h2

theorem unzigzag_zigzag (B : Nat) (hB : 0 < B) (v : Int)
    (hlo : -(2 ^ (B - 1) : Int) ≤ v) (hhi : v < 2 ^ (B - 1)) :
    toSigned B (if zigzagEncode B v &&& 1 ≠ 0 then
        (2 ^ B - 1) ^^^ (zigzagEncode B v >>> 1)
      else zigzagEncode B v >>> 1) = v := by
  have hBB := two_pow_split B hB
  have hBBn := two_pow_split_nat B hB
  have hc : (((2:Nat) ^ B : Nat) : Int) = 2 ^ B := by push_cast; ring
  have hc1 : (((2:Nat) ^ (B - 1) : Nat) : Int) = 2 ^ (B - 1) := by push_cast; ring
  rcases Int.lt_or_le v 0 with hv | hv
  · have hmod : (2 * v) % (2 ^ B : Int) = 2 * v + 2 ^ B := by
      have h1 : (2 * v + 2 ^ B * 1) % (2 ^ B : Int) = (2 * v) % 2 ^ B :=
        Int.add_mul_emod_self_left (2 * v) (2 ^ B) 1
      have h2 : (2 * v + 2 ^ B) % (2 ^ B : Int) = 2 * v + 2 ^ B :=
        Int.emod_eq_of_lt (by omega) (by omega)
      rw [← h2]
      rw [Int.mul_one] at h1
      rw [h1]
    have hzz : zigzagEncode B v = (2 ^ B - 1) ^^^ (2 * v + 2 ^ B).toNat := by
      unfold zigzagEncode
      rw [hmod, if_pos hv, Nat.xor_comm]
    have hu0lt : (2 * v + 2 ^ B).toNat < 2 ^ B := by omega
    have hzz2 : zigzagEncode B v = 2 ^ B - 1 - (2 * v + 2 ^ B).toNat := by
      rw [hzz, xor_ones B _ hu0lt]
    have hzcast : ((zigzagEncode B v : Nat) : Int) = -1 - 2 * v := by
      rw [hzz2]
      omega
    have hodd : zigzagEncode B v &&& 1 ≠ 0 := by
      rw [Nat.and_one_is_mod]
      omega
    rw [if_pos hodd, Nat.shiftRight_eq_div_pow, pow_one]
    have hhalf_lt : zigzagEncode B v / 2 < 2 ^ B := by omega
    rw [xor_ones B _ hhalf_lt]
    have hhc : ((zigzagEncode B v / 2 : Nat) : Int) = -v - 1 := by omega
    rw [toSigned_of_ge B _ (by omega)]
    omega
  · have hmod : (2 * v) % (2 ^ B : Int) = 2 * v :=
      Int.emod_eq_of_lt (by omega) (by omega)
    have hzz : zigzagEncode B v = (2 * v).toNat := by
      unfold zigzagEncode
      rw [hmod, if_neg (by omega), Nat.xor_zero]
    have hzcast : ((zigzagEncode B v : Nat) : Int) = 2 * v := by
      rw [hzz]
      omega
    have heven : ¬ zigzagEncode B v &&& 1 ≠ 0 := by
      rw [Nat.and_one_is_mod]
      omega
    rw [if_neg heven, Nat.shiftRight_eq_div_pow, pow_one]
    rw [toSigned_of_lt B _ (by omega)]
    omega

theorem read_write_signed_with (B : Nat) (hB : 0 < B) (h8 : 8 * (B / 8) = B)
    (enc : NumEncoding) (e : Endianness) (v : Int) (rest : List Nat)
    (hlo : -(2 ^ (B - 1) : Int) ≤ v) (hhi : v < 2 ^ (B - 1)) :
    read_signed_with B enc e (write_signed_with B enc e v ++ rest) = .ok v rest := by
  have hrlt : (v % (2 ^ B : Int)).toNat < 2 ^ B := emod_toNat_lt B v
  have hfix : fromLeBytes (toLeBytes (B / 8) ((v % (2 ^ B : Int)).toNat))
      = (v % (2 ^ B : Int)).toNat := by
    apply fromLe_toLe
    rw [h8]
    exact hrlt
  have huleb : ∀ u : Nat, u < 2 ^ B →
      uleb128_decode B (uleb128_encode u ++ rest) 0 0 = .ok u rest := by
    intro u hu
    have h := uleb128_decode_encode B u 0 0 rest hB (by simpa using hu) (by norm_num)
    simpa using h
  cases enc with
  | fixed =>
    cases e with
    | littleEndian =>
      simp only [write_signed_with, read_signed_with]
      rw [readExact_append _ _ _ (toLeBytes_length (B / 8) _)]
      simp only []
      rw [hfix, toSigned_emod B hB v hlo hhi]
    | bigEndian =>
      simp only [write_signed_with, read_signed_with]
      rw [readExact_append _ _ _ (by simp [toLeBytes_length])]
      simp only []
      rw [List.reverse_reverse, hfix, toSigned_emod B hB v hlo hhi]
  | leb128 =>
    simp only [write_signed_with, read_signed_with]
    have h := leb128_decode_encode B v.natAbs v rfl 0 0 rest hB (by norm_num)
      (by simpa using hlo) (by simpa using hhi)
    simpa using h
  | protobufWasteful =>
    simp only [write_signed_with, read_signed_with]
    rw [huleb _ hrlt]
    simp only []
    rw [toSigned_emod B hB v hlo hhi]
  | protobufZigzag =>
    simp only [write_signed_with, read_signed_with]
    rw [huleb _ (zigzag_lt B v)]
    simp only []
    rw [unzigzag_zigzag B hB v hlo hhi]

/-! ## Claim C1 -/

/-- C1: for every primitive integer width `B ∈ {8,16,32,64,128}` (the widths of
`u8..u128` and `i8..i128`), every `NumEncoding`, every `Endianness` and every
representable value, reading back from the exact byte sequence produced by the
width-dispatched write under the same encoding and endianness returns the
value; in particular `i128::MIN`, `i128::MAX`, `u128::MAX`, `0` and `-1`
round-trip under all encodings, and the signed LEB128 encoding of `i128::MIN`
is exactly 19 bytes long. -/
theorem claim1_integer_roundtrip :
    (∀ B ∈ [8, 16, 32, 64, 128], ∀ enc : NumEncoding, ∀ e : Endianness,
      (∀ v : Nat, ∀ rest, v < 2 ^ B →
        read_unsigned_with B enc e (write_unsigned_with B enc e v ++ rest) =
          .ok v rest) ∧
      (∀ v : Int, ∀ rest, -(2 ^ (B - 1) : Int) ≤ v → v < 2 ^ (B - 1) →
        read_signed_with B enc e (write_signed_with B enc e v ++ rest) =
          .ok v rest)) ∧
    (∀ enc : NumEncoding, ∀ e : Endianness,
      read_signed_with 128 enc e (write_signed_with 128 enc e (-(2 ^ 127))) =
        .ok (-(2 ^ 127)) [] ∧
      read_signed_with 128 enc e (write_signed_with 128 enc e (2 ^ 127 - 1)) =
        .ok (2 ^ 127 - 1) [] ∧
      read_unsigned_with 128 enc e (write_unsigned_with 128 enc e (2 ^ 128 - 1)) =
        .ok (2 ^ 128 - 1) [] ∧
      read_unsigned_with 128 enc e (write_unsigned_with 128 enc e 0) =
        .ok 0 [] ∧
      read_signed_with 128 enc e (write_signed_with 128 enc e (-1)) =
        .ok (-1) []) ∧
    (leb128_encode (-(2 ^ 127))).length = 19 := by
  have hgen : ∀ B, 0 < B → 8 * (B / 8) = B → ∀ enc : NumEncoding, ∀ e : Endianness,
      (∀ v : Nat, ∀ rest, v < 2 ^ B →
        read_unsigned_with B enc e (write_unsigned_with B enc e v ++ rest) =
          .ok v rest) ∧
      (∀ v : Int, ∀ rest, -(2 ^ (B - 1) : Int) ≤ v → v < 2 ^ (B - 1) →
        read_signed_with B enc e (write_signed_with B enc e v ++ rest) =
          .ok v rest) := by
    intro B h1 h2 enc e
    exact ⟨fun v rest hv => read_write_unsigned_with B h1 h2 enc e v rest hv,
      fun v rest hlo hhi => read_write_signed_with B h1 h2 enc e v rest hlo hhi⟩
  refine ⟨?_, ?_, ?_⟩
  · intro B hB enc e
    fin_cases hB <;> exact hgen _ (by norm_num) (by norm_num) enc e
  · intro enc e
    refine ⟨?_, ?_, ?_, ?_, ?_⟩
    · simpa only [List.append_nil] using
        (hgen 128 (by norm_num) (by norm_num) enc e).2 (-(2 ^ 127)) []
        (by norm_num) (by norm_num)
    · simpa only [List.append_nil] using
        (hgen 128 (by norm_num) (by norm_num) enc e).2 (2 ^ 127 - 1) []
        (by norm_num) (by norm_num)
    · simpa only [List.append_nil] using
        (hgen 128 (by norm_num) (by norm_num) enc e).1 (2 ^ 128 - 1) []
        (by norm_num)
    · simpa only [List.append_nil] using
        (hgen 128 (by norm_num) (by norm_num) enc e).1 0 []
        (by norm_num)
    · simpa only [List.append_nil] using
        (hgen 128 (by norm_num) (by norm_num) enc e).2 (-1) []
        (by norm_num) (by norm_num)
  · simp [leb128_encode]

/-- Witness for C1 at a concrete input: the `u8` value 200 under LEB128 with
trailing bytes present. -/
theorem claim1_integer_roundtrip_witness :
    read_unsigned_with 8 .leb128 .littleEndian
      (write_unsigned_with 8 .leb128 .littleEndian 200 ++ [7]) = .ok 200 [7] :=
  (claim1_integer_roundtrip.1 8 (by decide) .leb128 .littleEndian).1 200 [7]
    (by decide)

/-! ## Claim C2 -/

/-- C2: evaluation of the code at the failing inputs.  The claim asserts that
the ten listed codepoints round-trip through `write_char`/`read_char` in all
three string encodings; the code refutes it.  Under UTF-8 the codepoint U+0800
is written as `E0 A0 80` but read back as U+20000, because the reader
accumulates the continuation shift (`shift += 6; ch = (ch << shift) | ...`)
instead of shifting by a constant 6.  Under UTF-16 the codepoint U+10000 is
written as the surrogate pair `D800 DC00` but read back as U+0000, because the
reader omits the `+ 0x10000` offset when recombining a surrogate pair.
One- and two-byte UTF-8 sequences and UTF-32 are unaffected. -/
theorem claim2_char_roundtrip_eval :
    write_char .utf8 .littleEndian 0x800 = [0xE0, 0xA0, 0x80] ∧
    read_char .utf8 .littleEndian (write_char .utf8 .littleEndian 0x800) =
      .ok 0x20000 [] ∧
    (0x20000 : Nat) ≠ 0x800 ∧
    write_char .utf16 .littleEndian 0x10000 = [0x00, 0xD8, 0x00, 0xDC] ∧
    read_char .utf16 .littleEndian (write_char .utf16 .littleEndian 0x10000) =
      .ok 0 [] ∧
    (0 : Nat) ≠ 0x10000 ∧
    read_char .utf8 .littleEndian (write_char .utf8 .littleEndian 0x80) =
      .ok 0x80 [] ∧
    read_char .utf32 .bigEndian (write_char .utf32 .bigEndian 0x10FFFF) =
      .ok 0x10FFFF [] := by
  exact ⟨by decide, by decide, by decide, by decide, by decide, by decide,
    by decide, by decide⟩

/-! ## Claim C3 -/

/-- C3 counterexample: with the bool flatten channel armed with `true`, the
mismatched `write_bool false` raises the mismatch error and emits nothing,
but the channel does NOT remain armed with `true`: the flatten read consumed
it before the comparison, so it is absent after the failed call. -/
theorem claim3_flatten_counterexample :
    (write_bool ctxtBoolArmedTrue false).res =
      .err (.flattenError (.boolMismatch true false)) ∧
    (write_bool ctxtBoolArmedTrue false).bytes = [] ∧
    (write_bool ctxtBoolArmedTrue false).ctxt.bool_flatten = none ∧
    (write_bool ctxtBoolArmedTrue false).ctxt.bool_flatten ≠ some true := by
  exact ⟨by decide, by decide, by decide, by decide⟩

/-- C3 (amended): for every flatten channel armed with `v`, a write with a
mismatched argument raises the corresponding Flatten mismatch error and emits
no bytes, a write with a matching argument succeeds and emits no bytes, and in
BOTH cases the channel is consumed: it is absent after the call (not still
armed, as the original claim stated for the failure case). -/
theorem claim3_flatten_write_amended :
    (∀ c : Context, ∀ v x : Bool, c.bool_flatten = some v →
      (x ≠ v → (write_bool c x).res = .err (.flattenError (.boolMismatch v x))) ∧
      (x = v → (write_bool c x).res = .ok) ∧
      (write_bool c x).bytes = [] ∧ (write_bool c x).ctxt.bool_flatten = none) ∧
    (∀ c : Context, ∀ v x : Nat, c.size_flatten = some v →
      (x ≠ v → (write_usize c x).res = .err (.flattenError (.lenMismatch v x))) ∧
      (x = v → (write_usize c x).res = .ok) ∧
      (write_usize c x).bytes = [] ∧ (write_usize c x).ctxt.size_flatten = none) ∧
    (∀ c : Context, ∀ v : MaxWidthInt, ∀ x : Nat, c.variant_flatten = some v →
      (MaxWidthInt.unsigned x ≠ v → (write_uvariant c x).res =
        .err (.flattenError (.variantMismatch v (.unsigned x)))) ∧
      (MaxWidthInt.unsigned x = v → (write_uvariant c x).res = .ok) ∧
      (write_uvariant c x).bytes = [] ∧
      (write_uvariant c x).ctxt.variant_flatten = none) ∧
    (∀ c : Context, ∀ v : MaxWidthInt, ∀ x : Int, c.variant_flatten = some v →
      (MaxWidthInt.signed x ≠ v → (write_ivariant c x).res =
        .err (.flattenError (.variantMismatch v (.signed x)))) ∧
      (MaxWidthInt.signed x = v → (write_ivariant c x).res = .ok) ∧
      (write_ivariant c x).bytes = [] ∧
      (write_ivariant c x).ctxt.variant_flatten = none) := by
  refine ⟨?_, ?_, ?_, ?_⟩
  · intro c v x h
    rcases eq_or_ne x v with rfl | hx
    · exact ⟨fun hc => absurd rfl hc, fun _ => by simp [write_bool, h],
        by simp [write_bool, h], by simp [write_bool, h]⟩
    · exact ⟨fun _ => by simp [write_bool, h, Ne.symm hx],
        fun hc => absurd hc hx,
        by simp [write_bool, h, Ne.symm hx],
        by simp [write_bool, h, Ne.symm hx]⟩
  · intro c v x h
    rcases eq_or_ne x v with rfl | hx
    · exact ⟨fun hc => absurd rfl hc, fun _ => by simp [write_usize, h],
        by simp [write_usize, h], by simp [write_usize, h]⟩
    · exact ⟨fun _ => by simp [write_usize, h, Ne.symm hx],
        fun hc => absurd hc hx,
        by simp [write_usize, h, Ne.symm hx],
        by simp [write_usize, h, Ne.symm hx]⟩
  · intro c v x h
    rcases eq_or_ne (MaxWidthInt.unsigned x) v with rfl | hx
    · exact ⟨fun hc => absurd rfl hc, fun _ => by simp [write_uvariant, h],
        by simp [write_uvariant, h], by simp [write_uvariant, h]⟩
    · exact ⟨fun _ => by simp [write_uvariant, h, hx],
        fun hc => absurd hc hx,
        by simp [write_uvariant, h, hx],
        by simp [write_uvariant, h, hx]⟩
  · intro c v x h
    rcases eq_or_ne (MaxWidthInt.signed x) v with rfl | hx
    · exact ⟨fun hc => absurd rfl hc, fun _ => by simp [write_ivariant, h],
        by simp [write_ivariant, h], by simp [write_ivariant, h]⟩
    · exact ⟨fun _ => by simp [write_ivariant, h, hx],
        fun hc => absurd hc hx,
        by simp [write_ivariant, h, hx],
        by simp [write_ivariant, h, hx]⟩

/-- Witness for the amended C3: the size channel armed with 3, written with
4, raises the length mismatch error. -/
theorem claim3_flatten_write_amended_witness :
    (write_usize { Context.new with size_flatten := some 3 } 4).res =
      .err (.flattenError (.lenMismatch 3 4)) :=
  (claim3_flatten_write_amended.2.1
    { Context.new with size_flatten := some 3 } 3 4 rfl).1 (by decide)

/-! ## Claim C4 -/

/-- C4 counterexample: with `max_size = 5` and the size flatten channel armed
with 10, `write_usize 10` succeeds (emitting nothing) and `read_usize`
returns 10 — the `max_size` bound is not enforced while the flatten channel is
armed, contradicting the claim that it is enforced in every context state. -/
theorem claim4_maxsize_counterexample :
    10 > ctxtMax5Armed10.settings.size_repr.max_size ∧
    (write_usize ctxtMax5Armed10 10).res = .ok ∧
    read_usize ctxtMax5Armed10 [] = .ok 10 [] ctxtMax5 := by
  exact ⟨by decide, by decide, by decide⟩

/-- C4 (amended): when the size flatten channel is ABSENT, a `usize` strictly
greater than `max_size` is rejected with `MaxSizeExceeded {max, requested}`
both by `write_usize` (before any byte is emitted) and by `read_usize` (after
decoding the raw value); when the channel is armed, the flatten comparison or
flatten return happens without any `max_size` check. -/
theorem claim4_maxsize_amended :
    (∀ c : Context, ∀ v : Nat, c.size_flatten = none →
      v > c.settings.size_repr.max_size →
      (write_usize c v).res =
        .err (.maxSizeExceeded c.settings.size_repr.max_size v) ∧
      (write_usize c v).bytes = []) ∧
    (∀ c : Context, ∀ input rest : List Nat, ∀ v : Nat, c.size_flatten = none →
      read_unsigned_with c.settings.size_repr.width.bits
        c.settings.size_repr.num_encoding c.settings.size_repr.endianness input
        = .ok v rest →
      v < 2 ^ 64 → v > c.settings.size_repr.max_size →
      read_usize c input =
        .err (.maxSizeExceeded c.settings.size_repr.max_size v) rest c) ∧
    (∀ c : Context, ∀ s v : Nat, c.size_flatten = some s →
      (write_usize c v).res ≠
        .err (.maxSizeExceeded c.settings.size_repr.max_size v)) := by
  refine ⟨?_, ?_, ?_⟩
  · intro c v h hv
    constructor
    · simp [write_usize, h, hv]
    · simp [write_usize, h, hv]
  · intro c input rest v h hread hv64 hv
    simp only [read_usize, h, hread, MaxWidthInt.toUnsignedWidth]
    rw [if_pos hv64]
    simp only []
    rw [if_pos (by omega)]
  · intro c s v h
    by_cases hsv : s ≠ v
    · simp [write_usize, h, hsv]
    · simp [write_usize, h, hsv]

/-- Witness for the amended C4: with `max_size = 5` and no flatten, writing 10
fails with `MaxSizeExceeded 5 10`, and reading the 64-bit little-endian
encoding of 10 also fails with `MaxSizeExceeded 5 10`. -/
theorem claim4_maxsize_amended_witness :
    (write_usize ctxtMax5 10).res = .err (.maxSizeExceeded 5 10) ∧
    read_usize ctxtMax5 [10, 0, 0, 0, 0, 0, 0, 0] =
      .err (.maxSizeExceeded 5 10) [] ctxtMax5 := by
  constructor
  · exact (claim4_maxsize_amended.1 ctxtMax5 10 rfl (by decide)).1
  · exact claim4_maxsize_amended.2.1 ctxtMax5 [10, 0, 0, 0, 0, 0, 0, 0] [] 10 rfl
      (by decide) (by decide) (by decide)

/-! ## Claim C5 -/

/-- C5: evaluation at the failing input.  With `variant_repr` at Bit8, Fixed
encoding, either endianness and the variant flatten channel absent, the claim
asserts that `read_ivariant` is symmetric to `write_ivariant` at every width,
including Bit8 with negative discriminants.  The code refutes it:
`write_ivariant (-1)` writes the single byte `0xFF`, but the Bit8 arm of
`read_ivariant` calls the UNSIGNED 8-bit read, producing the unsigned carrier
value 255, whose narrowing to the signed 8-bit target fails with a range error
instead of returning -1 (and narrowing to a wider signed target returns +255,
not -1).  The spec itself flags this arm as a likely bug. -/
theorem claim5_ivariant_bit8_eval :
    write_ivariant ctxtVariantBit8 (-1) = ⟨.ok, [255], ctxtVariantBit8⟩ ∧
    read_ivariant ctxtVariantBit8 8 [255] = .err .rangeError [] ctxtVariantBit8 ∧
    read_ivariant ctxtVariantBit8 32 [255] = .ok 255 [] ctxtVariantBit8 ∧
    (255 : Int) ≠ -1 := by
  exact ⟨by decide, by decide, by decide, by decide⟩

/-! ## Claim C6 -/

/-- C6 counterexample: a length prefix of 2 followed by the byte `A` and the
lone UTF-8 leading byte `C3`.  The second char read consumes `C3` (draining
the budget to zero) and then requires a continuation byte while the limiter
reports zero bytes remaining — the limit is hit mid-char — yet `read_str`
SUCCEEDS with the chars decoded so far instead of returning the hard error the
claim requires. -/
theorem claim6_read_str_counterexample :
    read_char_L .utf8 .littleEndian [0xC3] 1 = .err .unexpectedEnd [] 0 ∧
    read_str ctxtSizeBit8 [0x02, 0x41, 0xC3] = .ok [0x41] [] ctxtSizeBit8 := by
  exact ⟨by decide, by decide⟩

/-- C6 (amended): `read_str` reads the length `n` and then decodes chars
through a SizeLimit of `n` bytes.  When a char read fails with `UnexpectedEnd`
while the limiter still has budget remaining (the underlying stream ended
early), the iteration returns that hard error; when the failure occurs with
zero budget remaining — at a char boundary or mid-char alike — the iteration
terminates cleanly and `read_str` succeeds with the chars decoded so far. -/
theorem claim6_read_str_limit_amended :
    (∀ se : StrEncoding, ∀ e : Endianness, ∀ fuel : Nat, ∀ acc input rest : List Nat,
      ∀ rem rem2 : Nat,
      read_char_L se e input rem = .err .unexpectedEnd rest rem2 →
      (rem2 ≠ 0 → str_loop se e (fuel + 1) acc input rem = .err .unexpectedEnd rest) ∧
      (rem2 = 0 → str_loop se e (fuel + 1) acc input rem = .ok acc.reverse rest)) ∧
    read_str ctxtSizeBit8 [0x02, 0x41, 0x42, 0x99] = .ok [0x41, 0x42] [0x99] ctxtSizeBit8 ∧
    read_str ctxtSizeBit8 [0x05, 0x41] = .err .unexpectedEnd [] ctxtSizeBit8 ∧
    read_str ctxtSizeBit8 [0x02, 0x41, 0xC3] = .ok [0x41] [] ctxtSizeBit8 := by
  refine ⟨?_, by decide, by decide, by decide⟩
  intro se e fuel acc input rest rem rem2 hread
  constructor
  · intro h2
    simp only [str_loop, hread]
    rw [if_pos h2]
  · intro h2
    simp only [str_loop, hread]
    rw [if_neg (by omega)]

/-- Witness for the amended C6: with the budget exhausted mid-char (`C3` read,
zero bytes remaining), the iteration ends cleanly with the accumulator. -/
theorem claim6_read_str_limit_amended_witness :
    str_loop .utf8 .littleEndian 1 [0x41] [0xC3] 1 = .ok [0x41] [] :=
  (claim6_read_str_limit_amended.1 .utf8 .littleEndian 0 [0x41] [0xC3] [] 1 0
    (by decide)).2 rfl

/-! ## Claim C7 -/

/-- C7 counterexample: when the user closure fails with one error and the
finish step fails with another, the returned error is the FINISH error, not
the closure error as the claim states: the source propagates the finish
failure through the `?` operator before returning `f`'s result. -/
theorem claim7_compression_counterexample :
    encode_with_compression .ok (.err .varIntError) (.err .unexpectedEnd) =
      .err .unexpectedEnd ∧
    EErr.unexpectedEnd ≠ EErr.varIntError := by
  exact ⟨rfl, by decide⟩

/-- C7 (amended): once the compression wrapper is constructed, the finish step
runs on every exit path, including when the user closure `f` fails, and `f`'s
result is returned only after it; but a finish error replaces `f`'s result
unconditionally — it takes precedence over both a prior success AND a prior
failure of `f`.  The decode side behaves identically. -/
theorem claim7_compression_finish_amended :
    (∀ fres finishres : WRes,
      encode_with_compression .ok fres finishres =
        match finishres with
        | .err er => .err er
        | .ok => fres) ∧
    (∀ er : EErr, ∀ fres : WRes,
      encode_with_compression .ok fres (.err er) = .err er) ∧
    (∀ fres : WRes, encode_with_compression .ok fres .ok = fres) ∧
    (∀ α : Type, ∀ fres : Except EErr α, ∀ er : EErr,
      decode_with_compression α .ok fres (.err er) = .error er) ∧
    (∀ α : Type, ∀ fres : Except EErr α,
      decode_with_compression α .ok fres .ok = fres) := by
  refine ⟨?_, ?_, ?_, ?_, ?_⟩
  · intro fres finishres
    cases finishres <;> rfl
  · intro er fres
    rfl
  · intro fres
    rfl
  · intro α fres er
    rfl
  · intro α fres
    rfl

/-! ## Claim C8 -/

/-- C8: the unsigned LEB128 decoder returns `VarIntError` whenever the
accumulated shift reaches or exceeds `bits(T)` before a byte with the
continuation bit clear has been read: a run of `(B - shift + 6) / 7`
continuation bytes (from accumulated shift `shift`) is consumed and the next
guard check fails, leaving the remainder of the input unread.  In particular
a `u128` decode of 20 consecutive `0x80` bytes fails with `VarIntError` after
consuming exactly 19 of them. -/
theorem claim8_varint_overflow :
    (∀ B : Nat, ∀ bs : List Nat, ∀ rest : List Nat, ∀ result shift : Nat,
      (∀ b ∈ bs, b &&& 128 ≠ 0) → bs.length = (B - shift + 6) / 7 →
      uleb128_decode B (bs ++ rest) result shift = .err .varIntError rest) ∧
    uleb128_decode 128 (List.replicate 20 128) 0 0 = .err .varIntError [128] ∧
    List.replicate 20 (128 : Nat) = List.replicate 19 128 ++ [128] := by
  constructor
  · intro B bs
    induction bs with
    | nil =>
      intro rest result shift hcont hlen
      have hs : B ≤ shift := by
        simp only [List.length_nil] at hlen
        omega
      rw [List.nil_append, uleb128_decode.eq_def]
      simp only []
      rw [if_pos hs]
    | cons b bs2 ih =>
      intro rest result shift hcont hlen
      simp only [List.length_cons] at hlen
      have hs : shift < B := by omega
      rw [List.cons_append, uleb128_decode.eq_def]
      simp only []
      rw [if_neg (by omega)]
      have hb : (b &&& 128 == 0) = false := by
        have h1 : b &&& 128 ≠ 0 := hcont b (by simp)
        simpa using h1
      rw [hb]
      simp only [Bool.false_eq_true, if_false]
      exact ih rest _ (shift + 7)
        (fun x hx => hcont x (List.mem_cons_of_mem _ hx)) (by omega)
  · refine ⟨by decide, by decide⟩

/-- Witness for C8: the `u128` decode of 19 continuation bytes followed by one
more byte fails with `VarIntError`, leaving the twentieth byte unread. -/
theorem claim8_varint_overflow_witness :
    uleb128_decode 128 (List.replicate 19 128 ++ [128]) 0 0 =
      .err .varIntError [128] :=
  claim8_varint_overflow.1 128 (List.replicate 19 128) [128] 0 0
    (by decide) (by decide)

/-! ## Claim C9 -/

/-- C9: concrete var-int encodings.  LEB128 of the `u64` value 300 is exactly
`AC 02` and decodes back to 300; signed LEB128 of the `i32` value -1 is
exactly `7F` and decodes back to -1; ProtobufZigzag of the `i32` value -1 is
exactly `01` and decodes back to -1. -/
theorem claim9_concrete_encodings :
    write_unsigned_with 64 .leb128 .littleEndian 300 = [0xAC, 0x02] ∧
    read_unsigned_with 64 .leb128 .littleEndian [0xAC, 0x02] = .ok 300 [] ∧
    write_signed_with 32 .leb128 .littleEndian (-1) = [0x7F] ∧
    read_signed_with 32 .leb128 .littleEndian [0x7F] = .ok (-1) [] ∧
    write_signed_with 32 .protobufZigzag .littleEndian (-1) = [0x01] ∧
    read_signed_with 32 .protobufZigzag .littleEndian [0x01] = .ok (-1) [] := by
  refine ⟨?_, by decide, ?_, by decide, ?_, by decide⟩
  · simp [write_unsigned_with, uleb128_encode]
  · simp [write_signed_with, leb128_encode]
  · simp [write_signed_with, zigzagEncode, uleb128_encode]

/-! ## Claim C10 -/

/-- C10: the unsigned LEB128 decoder never fails on payload-bit overflow
within its shift budget.  For every well-terminated group sequence short
enough to pass the shift guard, decoding succeeds and returns the payload
truncated modulo `2 ^ B`: each 7-bit group is ORed in with a width-wrapping
shift, and the only failure condition checked is the shift guard at the start
of an iteration, never lost value bits.  In particular decoding a `u8` from
the two bytes `80 02` succeeds with 0 (the payload 256 truncated mod 256),
not an error. -/
theorem claim10_uleb_truncation :
    (∀ B : Nat, ∀ mids : List Nat, ∀ last : Nat, ∀ rest : List Nat,
      ∀ result shift : Nat,
      (∀ b ∈ mids, b &&& 128 ≠ 0) → last &&& 128 = 0 →
      shift + 7 * mids.length < B →
      uleb128_decode B (mids ++ last :: rest) result shift =
        .ok (result ||| (payload (mids ++ [last]) <<< shift) % 2 ^ B) rest) ∧
    uleb128_decode 8 [0x80, 0x02] 0 0 = .ok 0 [] ∧
    payload [0x80, 0x02] = 256 ∧ 256 % 2 ^ 8 = 0 := by
  constructor
  · intro B mids
    induction mids with
    | nil =>
      intro last rest result shift hcont hlast hlen
      simp only [List.length_nil] at hlen
      rw [List.nil_append, uleb128_decode.eq_def]
      simp only []
      rw [if_neg (by omega)]
      have hb : (last &&& 128 == 0) = true := by simpa using hlast
      rw [hb]
      simp only [if_true]
      have hp : payload ([] ++ [last]) = last &&& 127 := by
        simp [payload]
      rw [hp]
    | cons b mids2 ih =>
      intro last rest result shift hcont hlast hlen
      simp only [List.length_cons] at hlen
      rw [List.cons_append, uleb128_decode.eq_def]
      simp only []
      rw [if_neg (by omega)]
      have hb : (b &&& 128 == 0) = false := by
        have h1 : b &&& 128 ≠ 0 := hcont b (by simp)
        simpa using h1
      rw [hb]
      simp only [Bool.false_eq_true, if_false]
      rw [ih last rest _ (shift + 7)
        (fun x hx => hcont x (List.mem_cons_of_mem _ hx)) hlast (by omega)]
      congr 1
      rw [Nat.lor_assoc,
        shl_mod_or_merge (b &&& 127) (payload (mids2 ++ [last])) shift 7 B
          (by
            have h1 : b &&& 127 ≤ 127 := Nat.and_le_right
            omega)]
      have hpl : payload ((b :: mids2) ++ [last]) =
          (b &&& 127) + payload (mids2 ++ [last]) <<< 7 := by
        simp [payload, Nat.shiftLeft_eq]
        ring
      rw [hpl]
  · exact ⟨by decide, by decide, by decide⟩

/-- Witness for C10: the `u8` decode of `80 02` succeeds with the payload
truncated at width 8. -/
theorem claim10_uleb_truncation_witness :
    uleb128_decode 8 ([0x80] ++ 0x02 :: []) 0 0 =
      .ok (0 ||| (payload ([0x80] ++ [0x02]) <<< 0) % 2 ^ 8) [] :=
  claim10_uleb_truncation.1 8 [0x80] 0x02 [] 0 0 (by decide) (by decide)
    (by decide)

end Ende
